import Mathlib

/-!
ThreadPool: a self-scaling worker pool (threadpool.h)

A shallow embedding of the class `ThreadPool` of `threadpool.h`.

* The member variables of the class become the fields of the structure
  `ThreadPool`, under their source names.
* Every critical section of the source (a block that holds `m_queueLock`
  and/or `m_wokerStateLock`) becomes one function on that structure.
* The threads are made explicit: `workers` holds the program counter of every
  worker thread ever started, `manager` the program counter of the manager
  thread.  A schedule is a list of `Action`s, each of which runs one critical
  section of one thread; `step` runs one action, `run` a whole schedule.
* Starting a thread and the `m_idleWorkers++` that follows it are one step.
  The wait of a worker and the block it runs once the predicate holds are one
  step (`workerCritical`): the queue lock is held from the predicate on.
* A pass of the manager loop body takes one step for each lock scope of the
  source: the queue sample (lines 151 to 154), the counter sample (lines 157
  to 161), every turn of the grow loop (lines 166 to 174) and the shrink block
  (lines 178 to 184).  Other threads may step between any two of them; the
  values the manager read stay in its program counter.  `managerTick` is the
  whole pass as one function, which is the pass run without interruption
  (`managerTick_is_a_schedule`).
* `int` is `Int`.  All counters are bounded by the number of threads and the
  queue depth, which stay far from `2^31`, so no wrap-around is modelled.
  `cdiv` is the truncating division of C++.
* `std::packaged_task` / `std::future` are modelled by a table of result
  slots: invoking the packaged task stores the value the callable returned,
  or the failure it raised, into the slot its future reads.
* Task bodies are pure: they do not call back into the pool.
-/

namespace ThreadPool

/-- What invoking a callable produces: the value it returns, or the failure it raises. -/
inductive Outcome (V E : Type) where
  | value (v : V)
  | failure (e : E)
  deriving DecidableEq, Repr

/-- An element of `m_tasks`: the lambda `[task]() { (*task)(); }` of `submit`.
`slot` identifies the shared state of the captured `packaged_task` (the one its
future reads), `body` is the bound callable `std::bind(fn, args...)`. -/
structure Task (V E : Type) where
  slot : Nat
  body : Unit → Outcome V E

/-- Where a worker thread stands in the loop of `createWorker`. -/
inductive WorkerPc (V E : Type) where
  /-- at `m_queueCond.wait` (line 104) -/
  | waiting
  /-- left the first block with `task` popped (line 121), before line 123 -/
  | taken (t : Task V E)
  /-- counted busy (line 127), about to call `task()` (line 129) -/
  | running (t : Task V E)
  /-- `task()` has returned, before the block of line 131 -/
  | ran
  /-- the lambda has returned (line 113 or line 117) -/
  | exited

/-- The local variables of the manager loop body (lines 150 to 161). -/
structure Sample where
  task_num : Int
  idle_workers_num : Int
  total_workers : Int
  deriving DecidableEq, Repr

/-- Where the manager thread stands in the loop of `createManager`, with the
values of its local variables. -/
inductive ManagerPc where
  /-- at the test `!this->isShutdown()` of line 147 -/
  | loopHead
  /-- inside the loop body, before the queue sample (lines 149 to 151) -/
  | inBody
  /-- the queue depth is read (line 154), before the counter sample (line 157) -/
  | sampledQueue (task_num : Int)
  /-- at the test of the grow loop (line 166), with the number of turns `i` has
  left before it reaches `task_num / 2` -/
  | growing (smp : Sample) (left : Nat)
  /-- at the test of the shrink block (line 178) -/
  | shrinkTest (smp : Sample)
  /-- the loop has ended -/
  | stopped
  deriving DecidableEq, Repr

end ThreadPool

/-- The state of a `ThreadPool` object and of the threads it started. -/
structure ThreadPool (V E : Type) where
  m_coreThs : Int
  m_maxThs : Int
  m_isShutdown : Bool
  m_busyWorkers : Int
  m_idleWorkers : Int
  m_needExitWorkers : Int
  m_tasks : List (ThreadPool.Task V E)
  /-- the worker threads started so far, in start order -/
  workers : List (ThreadPool.WorkerPc V E)
  /-- the manager thread `m_managerTh` -/
  manager : ThreadPool.ManagerPc
  /-- the shared states of the packaged tasks created by `submit`;
  `none` while the result is not ready -/
  futures : List (Option (ThreadPool.Outcome V E))

namespace ThreadPool

variable {V E : Type}

/-- Integer division of C++ on `int`: the quotient is truncated towards zero. -/
def cdiv (a b : Int) : Int := Int.tdiv a b

/-- The method `shutdown` (lines 21 to 25). -/
def shutdown (p : ThreadPool V E) : ThreadPool V E :=
  { p with m_isShutdown := true }

/-- The method `getBusyNum` (lines 27 to 35). -/
def getBusyNum (p : ThreadPool V E) : Int := p.m_busyWorkers

/-- The method `getIdleNum` (lines 37 to 45). -/
def getIdleNum (p : ThreadPool V E) : Int := p.m_idleWorkers

/-- The method `isShutdown` (lines 53 to 57). -/
def isShutdown (p : ThreadPool V E) : Bool := p.m_isShutdown

/-- The method `needExitWorker` (lines 58 to 66). -/
def needExitWorker (p : ThreadPool V E) : Int := p.m_needExitWorkers

/-- Starting one detached worker thread and counting it idle:
`std::thread th(worker); th.detach(); m_idleWorkers++`
(lines 194 to 200 in the constructor, lines 168 to 172 in the manager). -/
def spawnWorker (p : ThreadPool V E) : ThreadPool V E :=
  { p with workers := p.workers ++ [WorkerPc.waiting],
           m_idleWorkers := p.m_idleWorkers + 1 }

/-- The loop `for (int i = 0; i < m_coreThs; i++)` of the constructor
(lines 192 to 201); the argument counts the iterations left. -/
def spawnCore : Nat → ThreadPool V E → ThreadPool V E
  | 0, p => p
  | n + 1, p => spawnCore n (spawnWorker p)

/-- The member initialisers of the constructor (line 190). -/
def initial (core_ths max_ths : Int) : ThreadPool V E :=
  { m_coreThs := core_ths, m_maxThs := max_ths, m_isShutdown := false,
    m_busyWorkers := 0, m_idleWorkers := 0, m_needExitWorkers := 0,
    m_tasks := [], workers := [], manager := ManagerPc.loopHead, futures := [] }

/-- The constructor `ThreadPool::ThreadPool(int core_ths, int max_ths)`
(lines 190 to 206).  `none` stands for a construction that fails; the source
has no statement that makes it fail. -/
def construct (core_ths max_ths : Int) : Option (ThreadPool V E) :=
  some (spawnCore core_ths.toNat (initial core_ths max_ths))

/-- The bound callable `std::bind(fn, args...)` of line 213. -/
def bind {A : Type} (fn : A → Outcome V E) (args : A) : Unit → Outcome V E :=
  fun _ => fn args

/-- The method `submit` (lines 208 to 223), for an already bound callable:
creates the packaged task and its future, appends the wrapping lambda to
`m_tasks`, returns the future (the index of its shared state). -/
def submit (p : ThreadPool V E) (body : Unit → Outcome V E) : Nat × ThreadPool V E :=
  (p.futures.length,
   { p with futures := p.futures ++ [none],
            m_tasks := p.m_tasks ++ [{ slot := p.futures.length, body := body }] })

/-- The call `get()` on the future returned by `submit`: the stored outcome, or
`none` while the result is not ready (the real call blocks). -/
def get (p : ThreadPool V E) (handle : Nat) : Option (Outcome V E) :=
  p.futures[handle]?.join

/-- The predicate of `m_queueCond.wait` (lines 105 and 106). -/
def waitPredicate (p : ThreadPool V E) : Bool :=
  p.isShutdown || !p.m_tasks.isEmpty || decide (p.needExitWorker > 0)

/-- The way a worker leaves the first block of its loop. -/
inductive WakeBranch (V E : Type) where
  /-- the `return` of line 113 -/
  | exitNeed
  /-- the `return` of line 117 -/
  | exitShutdown
  /-- lines 119 and 120: the task popped from the head of `m_tasks` -/
  | took (t : Task V E)

/-- The first block of the worker loop (lines 103 to 121), from the moment the
wait predicate is found true: `none` while the worker stays blocked. -/
def workerCritical (p : ThreadPool V E) : Option (WakeBranch V E × ThreadPool V E) :=
  if p.waitPredicate then
    if p.m_needExitWorkers > 0 then
      some (WakeBranch.exitNeed,
            { p with m_needExitWorkers := p.m_needExitWorkers - 1,
                     m_idleWorkers := p.m_idleWorkers - 1 })
    else if p.isShutdown && p.m_tasks.isEmpty then
      some (WakeBranch.exitShutdown, p)
    else
      match p.m_tasks with
      | [] => none
      | t :: rest => some (WakeBranch.took t, { p with m_tasks := rest })
  else none

/-- The second block of the worker loop (lines 123 to 127). -/
def workerMarkBusy (p : ThreadPool V E) : ThreadPool V E :=
  { p with m_busyWorkers := p.m_busyWorkers + 1, m_idleWorkers := p.m_idleWorkers - 1 }

/-- The call `task()` of line 129: the packaged task runs the bound callable
and stores what it returned or raised into its shared state. -/
def runTask (p : ThreadPool V E) (t : Task V E) : ThreadPool V E :=
  { p with futures := p.futures.set t.slot (some (t.body ())) }

/-- The last block of the worker loop (lines 131 to 135). -/
def workerMarkIdle (p : ThreadPool V E) : ThreadPool V E :=
  { p with m_busyWorkers := p.m_busyWorkers - 1, m_idleWorkers := p.m_idleWorkers + 1 }

/-- Lines 155 to 161 of the manager loop: the counters are read, `task_num`
was read before. -/
def sampleCounters (task_num : Int) (p : ThreadPool V E) : Sample :=
  { task_num := task_num,
    idle_workers_num := p.m_idleWorkers,
    total_workers := p.m_idleWorkers + p.m_busyWorkers }

/-- The assignment to the local `total_workers` in the grow loop (line 173). -/
def Sample.withTotal (smp : Sample) (total_workers : Int) : Sample :=
  { smp with total_workers := total_workers }

/-- Lines 150 to 161 of the manager loop. -/
def managerSample (p : ThreadPool V E) : Sample :=
  sampleCounters (p.m_tasks.length : Int) p

/-- The loop `for (int i = 0; i < task_num / 2 && total_workers < m_maxThs; i++)`
(lines 166 to 174).  The first argument counts the iterations `i` has left
before it reaches `task_num / 2`, the second is the local `total_workers`. -/
def growLoop : Nat → Int → ThreadPool V E → ThreadPool V E
  | 0, _, p => p
  | n + 1, total_workers, p =>
    if total_workers < p.m_maxThs then
      growLoop n ((spawnWorker p).m_idleWorkers + (spawnWorker p).m_busyWorkers) (spawnWorker p)
    else p

/-- The block "increase workers" (lines 164 to 175). -/
def managerGrow (smp : Sample) (p : ThreadPool V E) : ThreadPool V E :=
  if smp.task_num > 2 * smp.idle_workers_num then
    growLoop (cdiv smp.task_num 2).toNat smp.total_workers p
  else p

/-- The value assigned to `m_needExitWorkers` (lines 181 and 182). -/
def shrinkAmount (idle_workers_num coreThs : Int) : Int :=
  if cdiv idle_workers_num 2 > coreThs then cdiv idle_workers_num 2
  else idle_workers_num - coreThs

/-- The block "decrease workers" (lines 178 to 184). -/
def managerShrink (smp : Sample) (p : ThreadPool V E) : ThreadPool V E :=
  if smp.task_num < 2 * smp.idle_workers_num ∧ smp.idle_workers_num > p.m_coreThs then
    { p with m_needExitWorkers := shrinkAmount smp.idle_workers_num p.m_coreThs }
  else p

/-- Lines 163 to 184: what the manager does with the values it sampled. -/
def managerAct (smp : Sample) (p : ThreadPool V E) : ThreadPool V E :=
  managerShrink smp (managerGrow smp p)

/-- One pass of the manager loop body (lines 149 to 184), run without any
other thread in between. -/
def managerTick (p : ThreadPool V E) : ThreadPool V E :=
  managerAct (managerSample p) p

/-- The steps of the threads that use the pool. -/
inductive Action (V E : Type) where
  /-- a caller runs `submit` with this bound callable -/
  | submit (body : Unit → Outcome V E)
  /-- a caller runs `shutdown` -/
  | shutdown
  /-- worker `i` wakes from the wait and runs lines 108 to 121 -/
  | workerWake (i : Nat)
  /-- worker `i` runs lines 123 to 127 -/
  | workerBusy (i : Nat)
  /-- worker `i` runs `task()` -/
  | workerRun (i : Nat)
  /-- worker `i` runs lines 131 to 135 -/
  | workerIdle (i : Nat)
  /-- the manager evaluates the loop test of line 147 -/
  | managerCheck
  /-- the manager reads the queue depth (lines 151 to 154) -/
  | managerSampleQueue
  /-- the manager reads the counters (lines 157 to 161) and evaluates the test
  of line 164 -/
  | managerSampleCounters
  /-- the manager evaluates the test of the grow loop (line 166) and, when it
  holds, runs one turn of the loop (lines 168 to 173) -/
  | managerGrowStep
  /-- the manager runs the shrink block (lines 178 to 184) -/
  | managerShrinkStep

/-- One step of one thread; `none` when that thread cannot take this step in
this state. -/
def step (p : ThreadPool V E) : Action V E → Option (ThreadPool V E)
  | Action.submit body => some (p.submit body).2
  | Action.shutdown => some p.shutdown
  | Action.workerWake i =>
    match p.workers[i]? with
    | some WorkerPc.waiting =>
      match p.workerCritical with
      | some (WakeBranch.exitNeed, q) => some { q with workers := q.workers.set i WorkerPc.exited }
      | some (WakeBranch.exitShutdown, q) => some { q with workers := q.workers.set i WorkerPc.exited }
      | some (WakeBranch.took t, q) => some { q with workers := q.workers.set i (WorkerPc.taken t) }
      | none => none
    | _ => none
  | Action.workerBusy i =>
    match p.workers[i]? with
    | some (WorkerPc.taken t) =>
      some { p.workerMarkBusy with workers := p.workers.set i (WorkerPc.running t) }
    | _ => none
  | Action.workerRun i =>
    match p.workers[i]? with
    | some (WorkerPc.running t) =>
      some { p.runTask t with workers := p.workers.set i WorkerPc.ran }
    | _ => none
  | Action.workerIdle i =>
    match p.workers[i]? with
    | some WorkerPc.ran =>
      some { p.workerMarkIdle with workers := p.workers.set i WorkerPc.waiting }
    | _ => none
  | Action.managerCheck =>
    match p.manager with
    | ManagerPc.loopHead =>
      some { p with manager := if p.isShutdown then ManagerPc.stopped else ManagerPc.inBody }
    | _ => none
  | Action.managerSampleQueue =>
    match p.manager with
    | ManagerPc.inBody =>
      some { p with manager := ManagerPc.sampledQueue (p.m_tasks.length : Int) }
    | _ => none
  | Action.managerSampleCounters =>
    match p.manager with
    | ManagerPc.sampledQueue task_num =>
      some { p with manager :=
        if task_num > 2 * p.m_idleWorkers then
          ManagerPc.growing (sampleCounters task_num p) (cdiv task_num 2).toNat
        else ManagerPc.shrinkTest (sampleCounters task_num p) }
    | _ => none
  | Action.managerGrowStep =>
    match p.manager with
    | ManagerPc.growing smp 0 => some { p with manager := ManagerPc.shrinkTest smp }
    | ManagerPc.growing smp (n + 1) =>
      if smp.total_workers < p.m_maxThs then
        some { spawnWorker p with
          manager := ManagerPc.growing (smp.withTotal (p.spawnWorker.m_idleWorkers + p.spawnWorker.m_busyWorkers)) n }
      else some { p with manager := ManagerPc.shrinkTest smp }
    | _ => none
  | Action.managerShrinkStep =>
    match p.manager with
    | ManagerPc.shrinkTest smp => some { managerShrink smp p with manager := ManagerPc.loopHead }
    | _ => none

/-- A schedule, run from left to right. -/
def run (p : ThreadPool V E) : List (Action V E) → Option (ThreadPool V E)
  | [] => some p
  | a :: rest =>
    match p.step a with
    | some q => q.run rest
    | none => none

/-- The states a pool built by `construct core_ths max_ths` can reach. -/
def Reachable (core_ths max_ths : Int) (s : ThreadPool V E) : Prop :=
  ∃ p0 acts, construct core_ths max_ths = some p0 ∧ p0.run acts = some s

/-- A worker thread that has been started and has not returned. -/
def WorkerPc.isLive : WorkerPc V E → Bool
  | WorkerPc.exited => false
  | _ => true

/-- The number of live worker threads. -/
def liveWorkers (p : ThreadPool V E) : Int :=
  (p.workers.countP WorkerPc.isLive : Nat)

/-- The worker threads the counter `m_idleWorkers` stands for: those waiting,
and those that popped a task and have not yet run lines 123 to 127. -/
def WorkerPc.countsIdle : WorkerPc V E → Bool
  | WorkerPc.waiting => true
  | WorkerPc.taken _ => true
  | _ => false

/-- The worker threads the counter `m_busyWorkers` stands for: those between
line 127 and line 133. -/
def WorkerPc.countsBusy : WorkerPc V E → Bool
  | WorkerPc.running _ => true
  | WorkerPc.ran => true
  | _ => false

/-- The pool after `k` more workers were started and counted idle. -/
def spawnMany (k : Nat) (p : ThreadPool V E) : ThreadPool V E :=
  { p with workers := p.workers ++ List.replicate k WorkerPc.waiting,
           m_idleWorkers := p.m_idleWorkers + (k : Int) }

/-- The number of worker threads that `m_idleWorkers` stands for. -/
def idleThreads (p : ThreadPool V E) : Int :=
  (p.workers.countP WorkerPc.countsIdle : Nat)

/-- The number of worker threads that `m_busyWorkers` stands for. -/
def busyThreads (p : ThreadPool V E) : Int :=
  (p.workers.countP WorkerPc.countsBusy : Nat)

/-- The relation between the counters, the bounds and the worker threads that
every step keeps, for a pool built with the bounds `core_ths` and `max_ths`. -/
structure CountersOk (core_ths max_ths : Int) (s : ThreadPool V E) : Prop where
  core_eq : s.m_coreThs = core_ths
  max_eq : s.m_maxThs = max_ths
  busy_eq : s.m_busyWorkers = s.busyThreads
  need_nonneg : 0 ≤ s.m_needExitWorkers
  ceiling : s.m_idleWorkers + s.m_busyWorkers ≤ max_ths
  idle_eq : s.m_isShutdown = false → s.m_idleWorkers = s.idleThreads
  grow_ok : ∀ smp left, s.manager = ManagerPc.growing smp left →
    s.m_idleWorkers + s.m_busyWorkers ≤ smp.total_workers

/-- The state a schedule leads to; the pool itself when the schedule cannot run. -/
def runD (p : ThreadPool V E) (acts : List (Action V E)) : ThreadPool V E :=
  (p.run acts).getD p

/-- The task a step pops from `m_tasks` (lines 119 and 120), if it pops one. -/
def takenBy (p : ThreadPool V E) : Action V E → List (Task V E)
  | Action.workerWake i =>
    match p.workers[i]?, p.workerCritical with
    | some WorkerPc.waiting, some (WakeBranch.took t, _) => [t]
    | _, _ => []
  | _ => []

/-- The task a step appends to `m_tasks` (line 218), if it appends one. -/
def submittedBy (p : ThreadPool V E) : Action V E → List (Task V E)
  | Action.submit body => [{ slot := p.futures.length, body := body }]
  | _ => []

/-- The tasks the workers pop along a schedule, in the order of the pops. -/
def takenTasks (p : ThreadPool V E) : List (Action V E) → List (Task V E)
  | [] => []
  | a :: rest =>
    match p.step a with
    | some q => p.takenBy a ++ q.takenTasks rest
    | none => []

/-- The tasks `submit` enqueues along a schedule, in the order of the calls. -/
def submittedTasks (p : ThreadPool V E) : List (Action V E) → List (Task V E)
  | [] => []
  | a :: rest =>
    match p.step a with
    | some q => p.submittedBy a ++ q.submittedTasks rest
    | none => []

/-- The task a worker holds in its local variable `task` and has not run yet. -/
def WorkerPc.holds : WorkerPc V E → Option (Task V E)
  | WorkerPc.taken t => some t
  | WorkerPc.running t => some t
  | _ => none

/-- The tasks that were submitted and have not run yet: those in the queue and
those a worker holds. -/
def pendingTasks (p : ThreadPool V E) : List (Task V E) :=
  p.m_tasks ++ p.workers.filterMap WorkerPc.holds

/-- Every task that has not run refers to a shared state that `submit` created. -/
def SlotsAllocated (p : ThreadPool V E) : Prop :=
  ∀ t ∈ p.pendingTasks, t.slot < p.futures.length

/-- What holds of the future `handle` of a callable whose outcome is `r`, from
the `submit` that returned it onwards. -/
structure HandleOk (handle : Nat) (r : Outcome V E) (s : ThreadPool V E) : Prop where
  allocated : handle < s.futures.length
  bodies : ∀ t ∈ s.pendingTasks, t.slot = handle → t.body () = r
  result : s.get handle = none ∨ s.get handle = some r

/-- A callable used in the examples: it returns the double of an even
argument and raises the argument itself when it is odd. -/
def demoCallable (n : Nat) : Outcome Nat Nat :=
  if n % 2 = 0 then Outcome.value (2 * n) else Outcome.failure n

/-- A schedule for a pool built by `construct 1 3`: four submissions, a manager
pass that starts two workers, the four tasks run to their end on the three
workers, a manager pass that asks two workers to leave, and the two leave. -/
def demoSchedule : List (Action Nat Nat) :=
  [Action.submit (bind demoCallable 4), Action.submit (bind demoCallable 7),
   Action.submit (bind demoCallable 10), Action.submit (bind demoCallable 13),
   Action.managerCheck, Action.managerSampleQueue, Action.managerSampleCounters,
   Action.managerGrowStep, Action.managerGrowStep, Action.managerGrowStep,
   Action.managerShrinkStep,
   Action.workerWake 0, Action.workerWake 1, Action.workerWake 2,
   Action.workerBusy 0, Action.workerBusy 1, Action.workerBusy 2,
   Action.workerRun 1, Action.workerIdle 1, Action.workerRun 0, Action.workerRun 2,
   Action.workerWake 1, Action.workerBusy 1, Action.workerIdle 0, Action.workerIdle 2,
   Action.workerRun 1, Action.workerIdle 1,
   Action.managerCheck, Action.managerSampleQueue, Action.managerSampleCounters,
   Action.managerShrinkStep,
   Action.workerWake 2, Action.workerWake 0]

/-- The pool `construct 1 3` returns. -/
def demoPool : ThreadPool Nat Nat := spawnCore 1 (initial 1 3)

/-- The sample the manager holds between its counter sample and the end of
the pass. -/
def ManagerPc.sample? : ManagerPc → Option Sample
  | ManagerPc.growing smp _ => some smp
  | ManagerPc.shrinkTest smp => some smp
  | _ => none

/-- The step is a worker leaving through the exit check (lines 109 to 113). -/
def leavesOnNeed (p : ThreadPool V E) : Action V E → Bool
  | Action.workerWake _ => decide (p.m_needExitWorkers > 0)
  | _ => false

/-- No worker leaves through the exit check while the manager holds a sample,
that is between the counter sample of a pass and its shrink block. -/
def exitsAwayFromPass (p : ThreadPool V E) : List (Action V E) → Bool
  | [] => true
  | a :: rest =>
    match p.step a with
    | some q => !(p.manager.sample?.isSome && p.leavesOnNeed a) && q.exitsAwayFromPass rest
    | none => true

/-- What the restricted schedules keep while the shutdown flag is down, for a
pool built with the floor `core_ths`. -/
structure FloorOk (core_ths : Int) (s : ThreadPool V E) : Prop where
  floor : core_ths + s.m_needExitWorkers ≤ s.m_idleWorkers + s.m_busyWorkers
  sample : ∀ smp, s.manager.sample? = some smp →
    smp.idle_workers_num ≤ s.m_idleWorkers + s.m_busyWorkers

/-- A schedule for a pool built by `construct 1 3`, without any shutdown.
Three submissions; a first manager pass starts one worker; a second pass asks
one of the two idle workers to leave.  In the third pass the manager reads
`idle = 2`, worker 0 then leaves, and the manager writes the `1` it computed
from what it read; worker 1 leaves as well. -/
def staleSampleSchedule : List (Action Nat Nat) :=
  [Action.submit (bind demoCallable 4), Action.submit (bind demoCallable 7),
   Action.submit (bind demoCallable 10),
   Action.managerCheck, Action.managerSampleQueue, Action.managerSampleCounters,
   Action.managerGrowStep, Action.managerGrowStep, Action.managerShrinkStep,
   Action.managerCheck, Action.managerSampleQueue, Action.managerSampleCounters,
   Action.managerShrinkStep,
   Action.managerCheck, Action.managerSampleQueue, Action.managerSampleCounters,
   Action.workerWake 0,
   Action.managerShrinkStep,
   Action.workerWake 1]

/-! ## The spawn loops -/

theorem spawnMany_zero (p : ThreadPool V E) : spawnMany 0 p = p := by
  simp [spawnMany]

theorem spawnMany_spawnWorker (k : Nat) (p : ThreadPool V E) :
    spawnMany k (spawnWorker p) = spawnMany (k + 1) p := by
  simp only [spawnMany, spawnWorker, List.append_assoc, List.replicate_succ,
    List.singleton_append, Nat.cast_add, Nat.cast_one]
  congr 1
  omega

theorem spawnCore_eq (n : Nat) (p : ThreadPool V E) : spawnCore n p = spawnMany n p := by
  induction n generalizing p with
  | zero => simp [spawnCore, spawnMany_zero]
  | succ n ih => rw [spawnCore, ih, spawnMany_spawnWorker]

theorem growLoop_eq (n : Nat) (p : ThreadPool V E) :
    growLoop n (p.m_idleWorkers + p.m_busyWorkers) p
      = spawnMany (min n (p.m_maxThs - (p.m_idleWorkers + p.m_busyWorkers)).toNat) p := by
  induction n generalizing p with
  | zero => simp [growLoop, spawnMany_zero]
  | succ n ih =>
    rw [growLoop]
    split
    · rename_i h
      rw [ih (spawnWorker p), spawnMany_spawnWorker]
      congr 1
      simp only [spawnWorker]
      omega
    · rename_i h
      have : (p.m_maxThs - (p.m_idleWorkers + p.m_busyWorkers)).toNat = 0 := by omega
      rw [this, Nat.min_zero, spawnMany_zero]

theorem cdiv_two_of_nonneg {a : Int} (h : 0 ≤ a) : cdiv a 2 = a / 2 := by
  unfold cdiv
  exact Int.tdiv_eq_ediv h (by decide)

theorem managerGrow_eq (p : ThreadPool V E) :
    managerGrow (managerSample p) p
      = if (p.m_tasks.length : Int) > 2 * p.m_idleWorkers then
          spawnMany (min (cdiv (p.m_tasks.length : Int) 2).toNat
            (p.m_maxThs - (p.m_idleWorkers + p.m_busyWorkers)).toNat) p
        else p := by
  simp only [managerGrow, managerSample, sampleCounters]
  split
  · rw [growLoop_eq]
  · rfl

theorem managerGrow_fields (smp : Sample) (p : ThreadPool V E) :
    (managerGrow smp p).m_coreThs = p.m_coreThs ∧
    (managerGrow smp p).m_maxThs = p.m_maxThs ∧
    (managerGrow smp p).m_isShutdown = p.m_isShutdown ∧
    (managerGrow smp p).m_busyWorkers = p.m_busyWorkers ∧
    (managerGrow smp p).m_needExitWorkers = p.m_needExitWorkers ∧
    (managerGrow smp p).m_tasks = p.m_tasks ∧
    (managerGrow smp p).manager = p.manager ∧
    (managerGrow smp p).futures = p.futures := by
  have key : ∀ (n : Nat) (t : Int) (q : ThreadPool V E),
      (growLoop n t q).m_coreThs = q.m_coreThs ∧
      (growLoop n t q).m_maxThs = q.m_maxThs ∧
      (growLoop n t q).m_isShutdown = q.m_isShutdown ∧
      (growLoop n t q).m_busyWorkers = q.m_busyWorkers ∧
      (growLoop n t q).m_needExitWorkers = q.m_needExitWorkers ∧
      (growLoop n t q).m_tasks = q.m_tasks ∧
      (growLoop n t q).manager = q.manager ∧
      (growLoop n t q).futures = q.futures := by
    intro n
    induction n with
    | zero => intro t q; simp [growLoop]
    | succ n ih =>
      intro t q
      rw [growLoop]
      split
      · simpa [spawnWorker] using ih _ (spawnWorker q)
      · simp
  unfold managerGrow
  split
  · exact key _ _ _
  · simp

/-- The value a manager pass leaves in `m_needExitWorkers`. -/
theorem managerTick_needExit (p : ThreadPool V E) :
    (managerTick p).m_needExitWorkers
      = if (p.m_tasks.length : Int) < 2 * p.m_idleWorkers ∧ p.m_idleWorkers > p.m_coreThs then
          shrinkAmount p.m_idleWorkers p.m_coreThs
        else p.m_needExitWorkers := by
  have hf := managerGrow_fields (managerSample p) p
  simp only [managerTick, managerAct, managerShrink, hf.1]
  have hsmp : (managerSample p).task_num = (p.m_tasks.length : Int) ∧
      (managerSample p).idle_workers_num = p.m_idleWorkers := ⟨rfl, rfl⟩
  rw [hsmp.1, hsmp.2]
  by_cases hc : (p.m_tasks.length : Int) < 2 * p.m_idleWorkers ∧ p.m_idleWorkers > p.m_coreThs
  · rw [if_pos hc, if_pos hc]
  · rw [if_neg hc, if_neg hc]
    exact hf.2.2.2.2.1

/-- What a manager pass does to the counters and the worker threads. -/
theorem managerTick_counters (p : ThreadPool V E) :
    ∃ k : Nat,
      k = (if (p.m_tasks.length : Int) > 2 * p.m_idleWorkers then
            min (cdiv (p.m_tasks.length : Int) 2).toNat
              (p.m_maxThs - (p.m_idleWorkers + p.m_busyWorkers)).toNat
          else 0) ∧
      (managerTick p).m_idleWorkers = p.m_idleWorkers + (k : Int) ∧
      (managerTick p).m_busyWorkers = p.m_busyWorkers ∧
      (managerTick p).workers = p.workers ++ List.replicate k WorkerPc.waiting ∧
      (managerTick p).m_coreThs = p.m_coreThs ∧
      (managerTick p).m_maxThs = p.m_maxThs ∧
      (managerTick p).m_isShutdown = p.m_isShutdown ∧
      (managerTick p).m_tasks = p.m_tasks ∧
      (managerTick p).manager = p.manager ∧
      (managerTick p).futures = p.futures := by
  refine ⟨_, rfl, ?_⟩
  have hs : ∀ q : ThreadPool V E,
      (managerShrink (managerSample p) q).m_idleWorkers = q.m_idleWorkers ∧
      (managerShrink (managerSample p) q).m_busyWorkers = q.m_busyWorkers ∧
      (managerShrink (managerSample p) q).workers = q.workers ∧
      (managerShrink (managerSample p) q).m_coreThs = q.m_coreThs ∧
      (managerShrink (managerSample p) q).m_maxThs = q.m_maxThs ∧
      (managerShrink (managerSample p) q).m_isShutdown = q.m_isShutdown ∧
      (managerShrink (managerSample p) q).m_tasks = q.m_tasks ∧
      (managerShrink (managerSample p) q).manager = q.manager ∧
      (managerShrink (managerSample p) q).futures = q.futures := by
    intro q
    unfold managerShrink
    split <;> simp
  simp only [managerTick, managerAct]
  obtain ⟨h1, h2, h3, h4, h5, h6, h7, h8, h9⟩ := hs (managerGrow (managerSample p) p)
  rw [h1, h2, h3, h4, h5, h6, h7, h8, h9, managerGrow_eq]
  split
  · simp [spawnMany]
  · simp

/-! ## Construction -/

/-- C1, as stated, is false: the claim says that `construct` fails for every
pair of bounds with `coreCount < 0` or `coreCount > maxCount`, and starts no
worker.  The constructor has no check: `construct 3 2` returns a pool, with
three started workers and `m_idleWorkers = 3`. -/
theorem construct_invalid_bounds_not_rejected :
    ¬ (∀ core_ths max_ths : Int, (core_ths < 0 ∨ core_ths > max_ths) →
        (construct core_ths max_ths : Option (ThreadPool Unit Unit)) = none) ∧
    ((construct 3 2 : Option (ThreadPool Unit Unit)).map
        (fun p => (p.m_idleWorkers, p.workers.length))) = some (3, 3) := by
  refine ⟨fun h => ?_, by decide⟩
  have h32 := h 3 2 (Or.inr (by decide))
  simp [construct] at h32

/-- The pool the constructor returns. -/
theorem construct_spec (core_ths max_ths : Int) :
    ∃ p : ThreadPool V E, construct core_ths max_ths = some p ∧
      p.m_idleWorkers = max core_ths 0 ∧
      p.workers = List.replicate core_ths.toNat WorkerPc.waiting ∧
      p.m_busyWorkers = 0 ∧ p.m_needExitWorkers = 0 ∧ p.m_tasks = [] ∧
      p.m_isShutdown = false ∧ p.manager = ManagerPc.loopHead ∧
      p.m_coreThs = core_ths ∧ p.m_maxThs = max_ths := by
  refine ⟨_, rfl, ?_⟩
  rw [spawnCore_eq]
  simp only [spawnMany, initial, List.nil_append, Int.toNat_eq_max, zero_add, and_self, and_true]

/-- C1, amended: `construct` checks nothing and never fails.  Whatever the
bounds, it returns a pool with `max coreCount 0` workers, all waiting and all
counted idle, no busy worker, no pending exit, an empty queue, the shutdown
flag down and the manager at the head of its loop; `maxCount` is only stored.
So with `coreCount < 0` no worker is started and `idleCount` is 0, and with
`0 <= coreCount <= maxCount` the pool has `coreCount` idle workers. -/
theorem construct_never_fails (core_ths max_ths : Int) :
    ∃ p : ThreadPool V E, construct core_ths max_ths = some p ∧
      p.m_idleWorkers = max core_ths 0 ∧
      p.workers = List.replicate core_ths.toNat WorkerPc.waiting ∧
      p.m_busyWorkers = 0 ∧ p.m_needExitWorkers = 0 ∧ p.m_tasks = [] ∧
      p.m_isShutdown = false ∧ p.manager = ManagerPc.loopHead ∧
      p.m_coreThs = core_ths ∧ p.m_maxThs = max_ths ∧
      (core_ths < 0 → p.m_idleWorkers = 0 ∧ p.workers = []) ∧
      (0 ≤ core_ths → p.m_idleWorkers = core_ths ∧ (p.workers.length : Int) = core_ths) := by
  obtain ⟨p, hp, hidle, hws, hrest⟩ := construct_spec (V := V) (E := E) core_ths max_ths
  obtain ⟨hb, hn, ht, hsd, hmg, hc, hm⟩ := hrest
  refine ⟨p, hp, hidle, hws, hb, hn, ht, hsd, hmg, hc, hm, ?_, ?_⟩
  · intro hneg
    have h0 : core_ths.toNat = 0 := by omega
    rw [hidle, hws, h0]
    exact ⟨by omega, rfl⟩
  · intro hpos
    rw [hidle, hws, List.length_replicate]
    exact ⟨by omega, by omega⟩

/-! ## The exit check of the worker -/

/-- C9: in every state with `pendingExit > 0`, a waiting worker that wakes
returns in that iteration; the step takes 1 from `m_needExitWorkers` and 1 from
`m_idleWorkers` and changes nothing else (not `m_busyWorkers`, not the queue),
whether the queue is empty or not and whether the shutdown flag is up or not.
With `pendingExit = 0` the first block of the loop never leaves through that
branch and the wake step leaves `m_needExitWorkers` at 0. -/
theorem exit_check_has_priority (p : ThreadPool V E) (i : Nat)
    (hw : p.workers[i]? = some WorkerPc.waiting) :
    (0 < p.m_needExitWorkers →
      p.workerCritical = some (WakeBranch.exitNeed,
        { p with m_needExitWorkers := p.m_needExitWorkers - 1,
                 m_idleWorkers := p.m_idleWorkers - 1 }) ∧
      p.step (Action.workerWake i) = some
        { p with m_needExitWorkers := p.m_needExitWorkers - 1,
                 m_idleWorkers := p.m_idleWorkers - 1,
                 workers := p.workers.set i WorkerPc.exited }) ∧
    (p.m_needExitWorkers = 0 →
      (∀ q, p.workerCritical ≠ some (WakeBranch.exitNeed, q)) ∧
      (∀ q, p.step (Action.workerWake i) = some q →
        q.m_needExitWorkers = 0 ∧ q.m_busyWorkers = p.m_busyWorkers ∧
        q.m_idleWorkers = p.m_idleWorkers)) := by
  constructor
  · intro hpos
    have hpred : p.waitPredicate = true := by
      simp [waitPredicate, needExitWorker, hpos]
    have hcrit : p.workerCritical = some (WakeBranch.exitNeed,
        { p with m_needExitWorkers := p.m_needExitWorkers - 1,
                 m_idleWorkers := p.m_idleWorkers - 1 }) := by
      simp [workerCritical, hpred, hpos]
    refine ⟨hcrit, ?_⟩
    simp [step, hw, hcrit]
  · intro hzero
    have hcases : ∀ b q, p.workerCritical = some (b, q) →
        b ≠ WakeBranch.exitNeed ∧ q.m_needExitWorkers = 0 ∧
        q.m_busyWorkers = p.m_busyWorkers ∧ q.m_idleWorkers = p.m_idleWorkers := by
      intro b q hq
      have hn : ¬ (p.m_needExitWorkers > 0) := by omega
      unfold workerCritical at hq
      simp only [hn, if_false] at hq
      split at hq
      · split at hq
        · cases hq
          exact ⟨by simp, hzero, rfl, rfl⟩
        · split at hq
          · cases hq
          · cases hq
            exact ⟨by simp, hzero, rfl, rfl⟩
      · cases hq
    refine ⟨fun q hq => (hcases _ q hq).1 rfl, ?_⟩
    intro q hq
    simp only [step, hw] at hq
    split at hq
    · rename_i q0 hc
      exact absurd rfl (hcases _ _ hc).1
    · rename_i q0 hc
      cases hq
      exact (hcases _ _ hc).2
    · rename_i t q0 hc
      cases hq
      exact (hcases _ _ hc).2
    · cases hq

/-- C9 at a pool with two waiting workers, two queued tasks, the shutdown flag
up and `m_needExitWorkers = 1`: worker 0 wakes and returns. -/
theorem exit_check_has_priority_witness :
    (({ (spawnMany 2 (initial 1 4)) with
          m_needExitWorkers := 1, m_isShutdown := true,
          m_tasks := [{ slot := 0, body := fun _ => Outcome.value 7 },
                      { slot := 1, body := fun _ => Outcome.failure 9 }],
          futures := [none, none] } : ThreadPool Nat Nat).step (Action.workerWake 0)).map
        (fun q => (q.m_needExitWorkers, q.m_idleWorkers, q.m_busyWorkers, q.m_tasks.length,
          q.workers.map WorkerPc.isLive))
      = some (0, 1, 0, 2, [false, true]) := by
  have h := (exit_check_has_priority
    ({ (spawnMany 2 (initial 1 4)) with
          m_needExitWorkers := 1, m_isShutdown := true,
          m_tasks := [{ slot := 0, body := fun _ => Outcome.value 7 },
                      { slot := 1, body := fun _ => Outcome.failure 9 }],
          futures := [none, none] } : ThreadPool Nat Nat) 0 (by rfl)).1 (by decide)
  rw [h.2]
  decide

/-! ## The shrink decision of the manager -/

/-- C7, as stated, is false: the claim says that a pass with
`queueDepth < 2 * idle` and `idle > coreCount` sets `pendingExit` to
`max (idle / 2) (idle - coreCount)`.  With 10 idle workers, an empty queue and
`coreCount = 1` the pass writes `5`, and the maximum is `9`. -/
theorem shrink_amount_is_not_the_maximum :
    ¬ (∀ p : ThreadPool Unit Unit,
        (((p.m_tasks.length : Int) < 2 * p.m_idleWorkers ∧ p.m_idleWorkers > p.m_coreThs) →
          (managerTick p).m_needExitWorkers
            = max (cdiv p.m_idleWorkers 2) (p.m_idleWorkers - p.m_coreThs)) ∧
        (¬ ((p.m_tasks.length : Int) < 2 * p.m_idleWorkers ∧ p.m_idleWorkers > p.m_coreThs) →
          (managerTick p).m_needExitWorkers = p.m_needExitWorkers)) := by
  intro h
  have h10 := (h (spawnMany 10 (initial 1 20))).1 (by decide)
  revert h10
  decide

/-- C7, amended: a manager pass whose sampled values satisfy
`queueDepth < 2 * idle` and `idle > coreCount` sets `pendingExit` to `idle / 2`
when `idle / 2 > coreCount` and to `idle - coreCount` otherwise (truncating
division); a pass where that condition is false leaves `pendingExit`
unchanged. -/
theorem shrink_amount_of_tick (p : ThreadPool V E) :
    (((p.m_tasks.length : Int) < 2 * p.m_idleWorkers ∧ p.m_idleWorkers > p.m_coreThs) →
      (managerTick p).m_needExitWorkers
        = if cdiv p.m_idleWorkers 2 > p.m_coreThs then cdiv p.m_idleWorkers 2
          else p.m_idleWorkers - p.m_coreThs) ∧
    (¬ ((p.m_tasks.length : Int) < 2 * p.m_idleWorkers ∧ p.m_idleWorkers > p.m_coreThs) →
      (managerTick p).m_needExitWorkers = p.m_needExitWorkers) := by
  constructor
  · intro hc
    rw [managerTick_needExit, if_pos hc, shrinkAmount]
  · intro hc
    rw [managerTick_needExit, if_neg hc]

/-- C10, as stated, is false: the claim says that the manager writes `idle / 2`
whenever taking half of the idle workers away leaves more than `coreCount` of
them.  With 5 idle workers, an empty queue and `coreCount = 2`, taking `5 / 2 = 2`
away leaves `3 > 2`, and the pass writes `3`, not `2`. -/
theorem shrink_half_rule_fails_at_five :
    ¬ (∀ p : ThreadPool Unit Unit,
        0 ≤ p.m_coreThs → p.m_idleWorkers > p.m_coreThs →
        (p.m_tasks.length : Int) < 2 * p.m_idleWorkers →
          1 ≤ (managerTick p).m_needExitWorkers ∧
          (managerTick p).m_needExitWorkers ≤ p.m_idleWorkers - p.m_coreThs ∧
          (p.m_idleWorkers - cdiv p.m_idleWorkers 2 > p.m_coreThs →
            (managerTick p).m_needExitWorkers = cdiv p.m_idleWorkers 2) ∧
          (¬ (p.m_idleWorkers - cdiv p.m_idleWorkers 2 > p.m_coreThs) →
            (managerTick p).m_needExitWorkers = p.m_idleWorkers - p.m_coreThs)) := by
  intro h
  have h5 := (h (spawnMany 5 (initial 2 8)) (by decide) (by decide) (by decide)).2.2.1 (by decide)
  revert h5
  decide

/-- C10, amended: for `coreCount >= 0`, a sampled `idle > coreCount` and
`queueDepth < 2 * idle`, the value `w` the manager writes into `pendingExit`
satisfies `1 <= w <= idle - coreCount`, so `idle - w >= coreCount`; it is
`idle / 2` when `idle / 2 > coreCount` (half of the idle count is itself above
the floor) and `idle - coreCount`, which leaves exactly `coreCount`, otherwise. -/
theorem shrink_stays_above_floor (p : ThreadPool V E)
    (hcore : 0 ≤ p.m_coreThs) (hidle : p.m_idleWorkers > p.m_coreThs)
    (hdepth : (p.m_tasks.length : Int) < 2 * p.m_idleWorkers) :
    1 ≤ (managerTick p).m_needExitWorkers ∧
    (managerTick p).m_needExitWorkers ≤ p.m_idleWorkers - p.m_coreThs ∧
    p.m_idleWorkers - (managerTick p).m_needExitWorkers ≥ p.m_coreThs ∧
    (cdiv p.m_idleWorkers 2 > p.m_coreThs →
      (managerTick p).m_needExitWorkers = cdiv p.m_idleWorkers 2) ∧
    (¬ (cdiv p.m_idleWorkers 2 > p.m_coreThs) →
      (managerTick p).m_needExitWorkers = p.m_idleWorkers - p.m_coreThs ∧
      p.m_idleWorkers - (managerTick p).m_needExitWorkers = p.m_coreThs) := by
  have hw := managerTick_needExit p
  rw [if_pos ⟨hdepth, hidle⟩, shrinkAmount] at hw
  have hdiv := cdiv_two_of_nonneg (show 0 ≤ p.m_idleWorkers by omega)
  by_cases hhalf : cdiv p.m_idleWorkers 2 > p.m_coreThs
  · rw [if_pos hhalf] at hw
    rw [hw]
    refine ⟨?_, ?_, ?_, fun _ => rfl, fun hn => absurd hhalf hn⟩ <;> omega
  · rw [if_neg hhalf] at hw
    rw [hw]
    refine ⟨?_, ?_, ?_, fun hp => absurd hp hhalf, fun _ => ⟨rfl, ?_⟩⟩ <;> omega

/-- C10 at two pools with `coreCount = 2` and an empty queue: with 5 idle
workers the pass writes `3`, with 6 idle workers it writes `3 = 6 / 2`. -/
theorem shrink_stays_above_floor_witness :
    (1 ≤ (managerTick (spawnMany 5 (initial 2 8) : ThreadPool Unit Unit)).m_needExitWorkers ∧
     (managerTick (spawnMany 5 (initial 2 8) : ThreadPool Unit Unit)).m_needExitWorkers = 3) ∧
    (managerTick (spawnMany 6 (initial 2 8) : ThreadPool Unit Unit)).m_needExitWorkers = 3 := by
  have h5 := shrink_stays_above_floor (spawnMany 5 (initial 2 8) : ThreadPool Unit Unit)
    (by decide) (by decide) (by decide)
  have h6 := shrink_stays_above_floor (spawnMany 6 (initial 2 8) : ThreadPool Unit Unit)
    (by decide) (by decide) (by decide)
  exact ⟨⟨h5.1, (h5.2.2.2.2 (by decide)).1⟩, h6.2.2.2.1 (by decide)⟩

/-! ## The grow decision of the manager -/

/-- C6 at its failing input: a pool built by `construct 0 5`, one `submit`, the
manager passes its loop test.  The sampled queue depth is `1 > 2 * 0` and the
sampled total is `0 < 5`, yet the pass starts no worker: the total is `0`
before and after it.  So the claim, as stated, does not hold of the code. -/
theorem grow_skips_single_queued_task :
    ((construct 0 5 : Option (ThreadPool Nat Nat)).bind
        (fun p => p.run [Action.submit (fun _ => Outcome.value 1), Action.managerCheck])).map
      (fun s => ((s.m_tasks.length : Int), s.m_idleWorkers, s.m_idleWorkers + s.m_busyWorkers,
        s.m_maxThs, (managerTick s).m_idleWorkers + (managerTick s).m_busyWorkers,
        (managerTick s).workers.length))
      = some (1, 0, 0, 5, 0, 0) ∧
    ¬ (∀ p : ThreadPool Nat Nat,
        (p.m_tasks.length : Int) > 2 * p.m_idleWorkers →
        p.m_idleWorkers + p.m_busyWorkers < p.m_maxThs →
          p.m_idleWorkers + p.m_busyWorkers
            < (managerTick p).m_idleWorkers + (managerTick p).m_busyWorkers ∧
          (managerTick p).m_idleWorkers + (managerTick p).m_busyWorkers ≤ p.m_maxThs) := by
  refine ⟨by decide, fun h => ?_⟩
  have h1 := (h { (initial 0 5) with
      m_tasks := [{ slot := 0, body := fun _ => Outcome.value 1 }], futures := [none] }
    (by decide) (by decide)).1
  revert h1
  decide

/-- For a manager pass that runs without interruption, the growth property
holds as soon as two tasks are queued: when the sampled queue depth is at least
2 and exceeds `2 * idle`, with a sampled total below `m_maxThs`, the pass ends
with a strictly larger total that is the smaller of `total + queueDepth / 2`
and `m_maxThs`. -/
theorem managerTick_grows_from_two (p : ThreadPool V E)
    (hdepth : (p.m_tasks.length : Int) > 2 * p.m_idleWorkers)
    (htotal : p.m_idleWorkers + p.m_busyWorkers < p.m_maxThs)
    (htwo : 2 ≤ p.m_tasks.length) :
    p.m_idleWorkers + p.m_busyWorkers
      < (managerTick p).m_idleWorkers + (managerTick p).m_busyWorkers ∧
    (managerTick p).m_idleWorkers + (managerTick p).m_busyWorkers ≤ p.m_maxThs ∧
    (managerTick p).m_idleWorkers + (managerTick p).m_busyWorkers
      = min (p.m_idleWorkers + p.m_busyWorkers + (p.m_tasks.length : Int) / 2) p.m_maxThs := by
  obtain ⟨k, hk, hi, hb, -⟩ := managerTick_counters p
  rw [if_pos hdepth, cdiv_two_of_nonneg (by omega)] at hk
  rw [hi, hb]
  have h2 : (2 : Int) ≤ (p.m_tasks.length : Int) := by exact_mod_cast htwo
  omega

/-! ## The counters along a schedule -/

theorem countP_set_getElem? {α : Type} (f : α → Bool) (l : List α) (i : Nat) (a a0 : α)
    (h : l[i]? = some a0) :
    (((l.set i a).countP f : Nat) : Int)
      = ((l.countP f : Nat) : Int) - (if f a0 then 1 else 0) + (if f a then 1 else 0) := by
  induction l generalizing i with
  | nil => simp at h
  | cons x xs ih =>
    cases i with
    | zero =>
      simp only [List.getElem?_cons_zero, Option.some.injEq] at h
      subst h
      simp only [List.set_cons_zero, List.countP_cons]
      split <;> split <;> push_cast <;> omega
    | succ j =>
      simp only [List.getElem?_cons_succ] at h
      have hj := ih j h
      simp only [List.set_cons_succ, List.countP_cons]
      push_cast
      omega

theorem liveWorkers_eq (p : ThreadPool V E) :
    p.liveWorkers = p.idleThreads + p.busyThreads := by
  unfold liveWorkers idleThreads busyThreads
  induction p.workers with
  | nil => simp
  | cons w ws ih =>
    simp only [List.countP_cons]
    cases w <;> simp [WorkerPc.isLive, WorkerPc.countsIdle, WorkerPc.countsBusy] <;> omega

theorem countersOk_construct {core_ths max_ths : Int} (hc : 0 ≤ core_ths)
    (hm : core_ths ≤ max_ths) {p0 : ThreadPool V E}
    (h0 : construct core_ths max_ths = some p0) :
    CountersOk core_ths max_ths p0 := by
  simp only [construct, Option.some.injEq] at h0
  subst h0
  rw [spawnCore_eq]
  have hcast : ((core_ths.toNat : Nat) : Int) = core_ths := Int.toNat_of_nonneg hc
  refine ⟨rfl, rfl, ?_, ?_, ?_, ?_, ?_⟩
  · simp [spawnMany, initial, busyThreads, List.countP_replicate, WorkerPc.countsBusy]
  · simp [spawnMany, initial]
  · simp only [spawnMany, initial]; omega
  · intro _
    simp only [spawnMany, initial, idleThreads, List.nil_append, List.countP_replicate,
      WorkerPc.countsIdle, if_true, zero_add]
  · intro smp left hpc
    simp [spawnMany, initial] at hpc

theorem floorOk_construct {core_ths max_ths : Int} (hc : 0 ≤ core_ths)
    {p0 : ThreadPool V E} (h0 : construct core_ths max_ths = some p0) :
    FloorOk core_ths p0 := by
  simp only [construct, Option.some.injEq] at h0
  subst h0
  rw [spawnCore_eq]
  have hcast : ((core_ths.toNat : Nat) : Int) = core_ths := Int.toNat_of_nonneg hc
  refine ⟨?_, ?_⟩
  · simp only [spawnMany, initial]; omega
  · intro smp hpc
    simp [spawnMany, initial, ManagerPc.sample?] at hpc

/-- The three ways out of the first block of the worker loop. -/
theorem workerCritical_cases {p q : ThreadPool V E} {b : WakeBranch V E}
    (h : p.workerCritical = some (b, q)) :
    (b = WakeBranch.exitNeed ∧ 0 < p.m_needExitWorkers ∧
      q = { p with m_needExitWorkers := p.m_needExitWorkers - 1,
                   m_idleWorkers := p.m_idleWorkers - 1 }) ∨
    (b = WakeBranch.exitShutdown ∧ p.m_needExitWorkers ≤ 0 ∧ p.m_isShutdown = true ∧
      p.m_tasks = [] ∧ q = p) ∨
    (∃ t rest, b = WakeBranch.took t ∧ p.m_needExitWorkers ≤ 0 ∧ p.m_tasks = t :: rest ∧
      q = { p with m_tasks := rest }) := by
  unfold workerCritical at h
  split at h
  · split at h
    · rename_i hpos
      cases h
      exact Or.inl ⟨rfl, hpos, rfl⟩
    · rename_i hneg
      split at h
      · rename_i hsd
        cases h
        simp only [isShutdown, Bool.and_eq_true, List.isEmpty_iff] at hsd
        exact Or.inr (Or.inl ⟨rfl, by omega, hsd.1, hsd.2, rfl⟩)
      · split at h
        · cases h
        · rename_i t rest htasks
          cases h
          exact Or.inr (Or.inr ⟨t, rest, rfl, by omega, htasks, rfl⟩)
  · cases h

/-- What the wake step of worker `i` does. -/
theorem step_workerWake_cases {p s : ThreadPool V E} {i : Nat}
    (h : p.step (Action.workerWake i) = some s) :
    p.workers[i]? = some WorkerPc.waiting ∧
    ((0 < p.m_needExitWorkers ∧
        s = { p with m_needExitWorkers := p.m_needExitWorkers - 1,
                     m_idleWorkers := p.m_idleWorkers - 1,
                     workers := p.workers.set i WorkerPc.exited }) ∨
     (p.m_needExitWorkers ≤ 0 ∧ p.m_isShutdown = true ∧ p.m_tasks = [] ∧
        s = { p with workers := p.workers.set i WorkerPc.exited }) ∨
     (∃ t rest, p.m_needExitWorkers ≤ 0 ∧ p.m_tasks = t :: rest ∧
        s = { p with m_tasks := rest, workers := p.workers.set i (WorkerPc.taken t) })) := by
  simp only [step] at h
  split at h
  · rename_i hw
    refine ⟨hw, ?_⟩
    split at h
    · rename_i q hc
      cases h
      rcases workerCritical_cases hc with ⟨-, hpos, rfl⟩ | ⟨hb, -⟩ | ⟨t, rest, hb, -⟩
      · exact Or.inl ⟨hpos, rfl⟩
      · cases hb
      · cases hb
    · rename_i q hc
      cases h
      rcases workerCritical_cases hc with ⟨hb, -⟩ | ⟨-, hle, hsd, ht, rfl⟩ | ⟨t, rest, hb, -⟩
      · cases hb
      · exact Or.inr (Or.inl ⟨hle, hsd, ht, rfl⟩)
      · cases hb
    · rename_i t q hc
      cases h
      rcases workerCritical_cases hc with ⟨hb, -⟩ | ⟨hb, -⟩ | ⟨t', rest, hb, hle, ht, rfl⟩
      · cases hb
      · cases hb
      · cases hb
        exact Or.inr (Or.inr ⟨t, rest, hle, ht, rfl⟩)
    · cases h
  · cases h

theorem step_workerBusy_cases {p s : ThreadPool V E} {i : Nat}
    (h : p.step (Action.workerBusy i) = some s) :
    ∃ t, p.workers[i]? = some (WorkerPc.taken t) ∧
      s = { p with m_busyWorkers := p.m_busyWorkers + 1,
                   m_idleWorkers := p.m_idleWorkers - 1,
                   workers := p.workers.set i (WorkerPc.running t) } := by
  simp only [step] at h
  split at h
  · rename_i t hw
    cases h
    exact ⟨t, hw, rfl⟩
  · cases h

theorem step_workerRun_cases {p s : ThreadPool V E} {i : Nat}
    (h : p.step (Action.workerRun i) = some s) :
    ∃ t, p.workers[i]? = some (WorkerPc.running t) ∧
      s = { p with futures := p.futures.set t.slot (some (t.body ())),
                   workers := p.workers.set i WorkerPc.ran } := by
  simp only [step] at h
  split at h
  · rename_i t hw
    cases h
    exact ⟨t, hw, rfl⟩
  · cases h

theorem step_workerIdle_cases {p s : ThreadPool V E} {i : Nat}
    (h : p.step (Action.workerIdle i) = some s) :
    p.workers[i]? = some WorkerPc.ran ∧
      s = { p with m_busyWorkers := p.m_busyWorkers - 1,
                   m_idleWorkers := p.m_idleWorkers + 1,
                   workers := p.workers.set i WorkerPc.waiting } := by
  simp only [step] at h
  split at h
  · rename_i hw
    cases h
    exact ⟨hw, rfl⟩
  · cases h

theorem step_managerCheck_cases {p s : ThreadPool V E}
    (h : p.step Action.managerCheck = some s) :
    p.manager = ManagerPc.loopHead ∧
      s = { p with manager := if p.m_isShutdown then ManagerPc.stopped else ManagerPc.inBody } := by
  simp only [step] at h
  split at h
  · rename_i hm
    cases h
    exact ⟨hm, rfl⟩
  · cases h

theorem step_managerSampleQueue_cases {p s : ThreadPool V E}
    (h : p.step Action.managerSampleQueue = some s) :
    p.manager = ManagerPc.inBody ∧
      s = { p with manager := ManagerPc.sampledQueue (p.m_tasks.length : Int) } := by
  simp only [step] at h
  split at h
  · rename_i hm
    cases h
    exact ⟨hm, rfl⟩
  · cases h

theorem step_managerSampleCounters_cases {p s : ThreadPool V E}
    (h : p.step Action.managerSampleCounters = some s) :
    ∃ task_num, p.manager = ManagerPc.sampledQueue task_num ∧
      ((task_num > 2 * p.m_idleWorkers ∧
        s = { p with
          manager := ManagerPc.growing (sampleCounters task_num p) (cdiv task_num 2).toNat }) ∨
       (¬ task_num > 2 * p.m_idleWorkers ∧
        s = { p with manager := ManagerPc.shrinkTest (sampleCounters task_num p) })) := by
  simp only [step] at h
  split at h
  · rename_i task_num hm
    cases h
    refine ⟨task_num, hm, ?_⟩
    by_cases hg : task_num > 2 * p.m_idleWorkers
    · exact Or.inl ⟨hg, by rw [if_pos hg]⟩
    · exact Or.inr ⟨hg, by rw [if_neg hg]⟩
  · cases h

theorem step_managerGrowStep_cases {p s : ThreadPool V E}
    (h : p.step Action.managerGrowStep = some s) :
    ∃ smp left, p.manager = ManagerPc.growing smp left ∧
      ((s = { p with manager := ManagerPc.shrinkTest smp } ∧
          (left = 0 ∨ ¬ smp.total_workers < p.m_maxThs)) ∨
       (∃ n, left = n + 1 ∧ smp.total_workers < p.m_maxThs ∧
          s = { p with workers := p.workers ++ [WorkerPc.waiting],
                       m_idleWorkers := p.m_idleWorkers + 1,
                       manager := ManagerPc.growing (smp.withTotal (p.m_idleWorkers + 1 + p.m_busyWorkers)) n })) := by
  simp only [step] at h
  split at h
  · rename_i smp hm
    cases h
    exact ⟨smp, 0, hm, Or.inl ⟨rfl, Or.inl rfl⟩⟩
  · rename_i smp n hm
    split at h
    · rename_i hlt
      cases h
      exact ⟨smp, n + 1, hm, Or.inr ⟨n, rfl, hlt, rfl⟩⟩
    · rename_i hge
      cases h
      exact ⟨smp, n + 1, hm, Or.inl ⟨rfl, Or.inr hge⟩⟩
  · cases h

theorem step_managerShrinkStep_cases {p s : ThreadPool V E}
    (h : p.step Action.managerShrinkStep = some s) :
    ∃ smp, p.manager = ManagerPc.shrinkTest smp ∧
      ((smp.task_num < 2 * smp.idle_workers_num ∧ smp.idle_workers_num > p.m_coreThs ∧
        s = { p with m_needExitWorkers := shrinkAmount smp.idle_workers_num p.m_coreThs,
                     manager := ManagerPc.loopHead }) ∨
       (¬ (smp.task_num < 2 * smp.idle_workers_num ∧ smp.idle_workers_num > p.m_coreThs) ∧
        s = { p with manager := ManagerPc.loopHead })) := by
  simp only [step] at h
  split at h
  · rename_i smp hm
    cases h
    refine ⟨smp, hm, ?_⟩
    unfold managerShrink
    by_cases hc : smp.task_num < 2 * smp.idle_workers_num ∧ smp.idle_workers_num > p.m_coreThs
    · exact Or.inl ⟨hc.1, hc.2, by rw [if_pos hc]⟩
    · exact Or.inr ⟨hc, by rw [if_neg hc]⟩
  · cases h

/-- A step of the manager touches the manager itself and `m_needExitWorkers`,
and, when it starts a worker, `workers` and `m_idleWorkers`; nothing else. -/
theorem step_manager_shape {p s : ThreadPool V E} {a : Action V E}
    (ha : a = Action.managerCheck ∨ a = Action.managerSampleQueue ∨
      a = Action.managerSampleCounters ∨ a = Action.managerGrowStep ∨
      a = Action.managerShrinkStep)
    (h : p.step a = some s) :
    ∃ (k : Nat) (need : Int) (pc : ManagerPc),
      s = { p with workers := p.workers ++ List.replicate k WorkerPc.waiting,
                   m_idleWorkers := p.m_idleWorkers + (k : Int),
                   m_needExitWorkers := need, manager := pc } := by
  have hsame : ∀ pc : ManagerPc, ({ p with manager := pc } : ThreadPool V E)
      = { p with workers := p.workers ++ List.replicate 0 WorkerPc.waiting,
                 m_idleWorkers := p.m_idleWorkers + ((0 : Nat) : Int),
                 m_needExitWorkers := p.m_needExitWorkers, manager := pc } := by
    intro pc
    simp
  rcases ha with rfl | rfl | rfl | rfl | rfl
  · obtain ⟨-, rfl⟩ := step_managerCheck_cases h
    exact ⟨0, _, _, hsame _⟩
  · obtain ⟨-, rfl⟩ := step_managerSampleQueue_cases h
    exact ⟨0, _, _, hsame _⟩
  · obtain ⟨n, -, ⟨-, rfl⟩ | ⟨-, rfl⟩⟩ := step_managerSampleCounters_cases h
    · exact ⟨0, _, _, hsame _⟩
    · exact ⟨0, _, _, hsame _⟩
  · obtain ⟨smp, left, -, ⟨rfl, -⟩ | ⟨n, -, -, rfl⟩⟩ := step_managerGrowStep_cases h
    · exact ⟨0, _, _, hsame _⟩
    · exact ⟨1, p.m_needExitWorkers,
        ManagerPc.growing (smp.withTotal (p.m_idleWorkers + 1 + p.m_busyWorkers)) n, by simp⟩
  · obtain ⟨smp, -, ⟨-, -, rfl⟩ | ⟨-, rfl⟩⟩ := step_managerShrinkStep_cases h
    · exact ⟨0, shrinkAmount smp.idle_workers_num p.m_coreThs, ManagerPc.loopHead, by simp⟩
    · exact ⟨0, _, _, hsame _⟩

theorem idleThreads_set {p q : ThreadPool V E} {i : Nat} {w0 w : WorkerPc V E}
    (h : p.workers[i]? = some w0) (hq : q.workers = p.workers.set i w) :
    q.idleThreads
      = p.idleThreads - (if w0.countsIdle then 1 else 0) + (if w.countsIdle then 1 else 0) := by
  unfold idleThreads
  rw [hq]
  exact countP_set_getElem? _ _ _ _ _ h

theorem busyThreads_set {p q : ThreadPool V E} {i : Nat} {w0 w : WorkerPc V E}
    (h : p.workers[i]? = some w0) (hq : q.workers = p.workers.set i w) :
    q.busyThreads
      = p.busyThreads - (if w0.countsBusy then 1 else 0) + (if w.countsBusy then 1 else 0) := by
  unfold busyThreads
  rw [hq]
  exact countP_set_getElem? _ _ _ _ _ h

theorem busyThreads_nonneg (p : ThreadPool V E) : 0 ≤ p.busyThreads := by
  unfold busyThreads
  omega

theorem shrinkAmount_bounds {idle_workers_num coreThs : Int} (hc : 0 ≤ coreThs)
    (hi : idle_workers_num > coreThs) :
    1 ≤ shrinkAmount idle_workers_num coreThs ∧
    shrinkAmount idle_workers_num coreThs ≤ idle_workers_num - coreThs := by
  unfold shrinkAmount
  rw [cdiv_two_of_nonneg (show 0 ≤ idle_workers_num by omega)]
  split <;> omega

/-- Every step keeps the relation between counters, bounds and threads. -/
theorem countersOk_step {core_ths max_ths : Int} (hc : 0 ≤ core_ths)
    {p s : ThreadPool V E} (a : Action V E)
    (h : CountersOk core_ths max_ths p) (hstep : p.step a = some s) :
    CountersOk core_ths max_ths s := by
  have hpc := h.core_eq
  have hpm := h.max_eq
  have hpb := h.busy_eq
  have hpn := h.need_nonneg
  have hpceil := h.ceiling
  cases a with
  | submit body =>
    simp only [step, submit, Option.some.injEq] at hstep
    subst hstep
    exact ⟨h.core_eq, h.max_eq, h.busy_eq, h.need_nonneg, h.ceiling, h.idle_eq, h.grow_ok⟩
  | shutdown =>
    simp only [step, shutdown, Option.some.injEq] at hstep
    subst hstep
    exact ⟨h.core_eq, h.max_eq, h.busy_eq, h.need_nonneg, h.ceiling,
      fun hs => by simp at hs, h.grow_ok⟩
  | workerWake i =>
    obtain ⟨hw, hcases⟩ := step_workerWake_cases hstep
    rcases hcases with ⟨hpos, rfl⟩ | ⟨hle, hsd, ht, rfl⟩ | ⟨t, rest, hle, ht, rfl⟩
    · have hb := busyThreads_set (w := WorkerPc.exited) hw
        (q := { p with m_needExitWorkers := p.m_needExitWorkers - 1,
                       m_idleWorkers := p.m_idleWorkers - 1,
                       workers := p.workers.set i WorkerPc.exited }) rfl
      have hi := idleThreads_set (w := WorkerPc.exited) hw
        (q := { p with m_needExitWorkers := p.m_needExitWorkers - 1,
                       m_idleWorkers := p.m_idleWorkers - 1,
                       workers := p.workers.set i WorkerPc.exited }) rfl
      simp only [WorkerPc.countsBusy, WorkerPc.countsIdle, if_true, Bool.false_eq_true,
        if_false] at hb hi
      refine ⟨h.core_eq, h.max_eq, ?_, ?_, ?_, ?_, ?_⟩
      · rw [hb]; simpa using h.busy_eq
      · show 0 ≤ p.m_needExitWorkers - 1
        omega
      · show p.m_idleWorkers - 1 + p.m_busyWorkers ≤ max_ths
        omega
      · intro hs
        have := h.idle_eq hs
        rw [hi]
        show p.m_idleWorkers - 1 = _
        omega
      · intro smp left hm
        have := h.grow_ok smp left hm
        show p.m_idleWorkers - 1 + p.m_busyWorkers ≤ smp.total_workers
        omega
    · have hb := busyThreads_set (w := WorkerPc.exited) hw
        (q := { p with workers := p.workers.set i WorkerPc.exited }) rfl
      simp only [WorkerPc.countsBusy, Bool.false_eq_true, if_false] at hb
      refine ⟨h.core_eq, h.max_eq, ?_, h.need_nonneg, h.ceiling, ?_, h.grow_ok⟩
      · rw [hb]; simpa using h.busy_eq
      · intro hs
        rw [show p.m_isShutdown = false from hs] at hsd
        cases hsd
    · have hb := busyThreads_set (w := WorkerPc.taken t) hw
        (q := { p with m_tasks := rest, workers := p.workers.set i (WorkerPc.taken t) }) rfl
      have hi := idleThreads_set (w := WorkerPc.taken t) hw
        (q := { p with m_tasks := rest, workers := p.workers.set i (WorkerPc.taken t) }) rfl
      simp only [WorkerPc.countsBusy, WorkerPc.countsIdle, if_true, Bool.false_eq_true,
        if_false] at hb hi
      refine ⟨h.core_eq, h.max_eq, ?_, h.need_nonneg, h.ceiling, ?_, h.grow_ok⟩
      · rw [hb]; simpa using h.busy_eq
      · intro hs
        rw [hi]
        simpa using h.idle_eq hs
  | workerBusy i =>
    obtain ⟨t, hw, rfl⟩ := step_workerBusy_cases hstep
    have hb := busyThreads_set (w := WorkerPc.running t) hw
      (q := { p with m_busyWorkers := p.m_busyWorkers + 1,
                     m_idleWorkers := p.m_idleWorkers - 1,
                     workers := p.workers.set i (WorkerPc.running t) }) rfl
    have hi := idleThreads_set (w := WorkerPc.running t) hw
      (q := { p with m_busyWorkers := p.m_busyWorkers + 1,
                     m_idleWorkers := p.m_idleWorkers - 1,
                     workers := p.workers.set i (WorkerPc.running t) }) rfl
    simp only [WorkerPc.countsBusy, WorkerPc.countsIdle, if_true, Bool.false_eq_true,
      if_false] at hb hi
    refine ⟨h.core_eq, h.max_eq, ?_, h.need_nonneg, ?_, ?_, ?_⟩
    · rw [hb]
      show p.m_busyWorkers + 1 = _
      omega
    · show p.m_idleWorkers - 1 + (p.m_busyWorkers + 1) ≤ max_ths
      omega
    · intro hs
      have := h.idle_eq hs
      rw [hi]
      show p.m_idleWorkers - 1 = _
      omega
    · intro smp left hm
      have := h.grow_ok smp left hm
      show p.m_idleWorkers - 1 + (p.m_busyWorkers + 1) ≤ smp.total_workers
      omega
  | workerRun i =>
    obtain ⟨t, hw, rfl⟩ := step_workerRun_cases hstep
    have hb := busyThreads_set (w := WorkerPc.ran) hw
      (q := { p with futures := p.futures.set t.slot (some (t.body ())),
                     workers := p.workers.set i WorkerPc.ran }) rfl
    have hi := idleThreads_set (w := WorkerPc.ran) hw
      (q := { p with futures := p.futures.set t.slot (some (t.body ())),
                     workers := p.workers.set i WorkerPc.ran }) rfl
    simp only [WorkerPc.countsBusy, WorkerPc.countsIdle, if_true, Bool.false_eq_true,
      if_false] at hb hi
    refine ⟨h.core_eq, h.max_eq, ?_, h.need_nonneg, h.ceiling, ?_, h.grow_ok⟩
    · rw [hb]
      show p.m_busyWorkers = _
      omega
    · intro hs
      have := h.idle_eq hs
      rw [hi]
      show p.m_idleWorkers = _
      omega
  | workerIdle i =>
    obtain ⟨hw, rfl⟩ := step_workerIdle_cases hstep
    have hb := busyThreads_set (w := WorkerPc.waiting) hw
      (q := { p with m_busyWorkers := p.m_busyWorkers - 1,
                     m_idleWorkers := p.m_idleWorkers + 1,
                     workers := p.workers.set i WorkerPc.waiting }) rfl
    have hi := idleThreads_set (w := WorkerPc.waiting) hw
      (q := { p with m_busyWorkers := p.m_busyWorkers - 1,
                     m_idleWorkers := p.m_idleWorkers + 1,
                     workers := p.workers.set i WorkerPc.waiting }) rfl
    simp only [WorkerPc.countsBusy, WorkerPc.countsIdle, if_true, Bool.false_eq_true,
      if_false] at hb hi
    refine ⟨h.core_eq, h.max_eq, ?_, h.need_nonneg, ?_, ?_, ?_⟩
    · rw [hb]
      show p.m_busyWorkers - 1 = _
      omega
    · show p.m_idleWorkers + 1 + (p.m_busyWorkers - 1) ≤ max_ths
      omega
    · intro hs
      have := h.idle_eq hs
      rw [hi]
      show p.m_idleWorkers + 1 = _
      omega
    · intro smp left hm
      have := h.grow_ok smp left hm
      show p.m_idleWorkers + 1 + (p.m_busyWorkers - 1) ≤ smp.total_workers
      omega
  | managerCheck =>
    obtain ⟨hm, rfl⟩ := step_managerCheck_cases hstep
    refine ⟨h.core_eq, h.max_eq, h.busy_eq, h.need_nonneg, h.ceiling, h.idle_eq, ?_⟩
    intro smp left hg
    simp only at hg
    split at hg <;> cases hg
  | managerSampleQueue =>
    obtain ⟨hm, rfl⟩ := step_managerSampleQueue_cases hstep
    refine ⟨h.core_eq, h.max_eq, h.busy_eq, h.need_nonneg, h.ceiling, h.idle_eq, ?_⟩
    intro smp left hg
    cases hg
  | managerSampleCounters =>
    obtain ⟨n, hm, ⟨-, rfl⟩ | ⟨-, rfl⟩⟩ := step_managerSampleCounters_cases hstep
    · refine ⟨h.core_eq, h.max_eq, h.busy_eq, h.need_nonneg, h.ceiling, h.idle_eq, ?_⟩
      intro smp left hg
      simp only [ManagerPc.growing.injEq] at hg
      rw [← hg.1]
      exact le_refl _
    · refine ⟨h.core_eq, h.max_eq, h.busy_eq, h.need_nonneg, h.ceiling, h.idle_eq, ?_⟩
      intro smp left hg
      cases hg
  | managerGrowStep =>
    obtain ⟨smp, left, hm, ⟨rfl, -⟩ | ⟨n, -, hlt, rfl⟩⟩ := step_managerGrowStep_cases hstep
    · refine ⟨h.core_eq, h.max_eq, h.busy_eq, h.need_nonneg, h.ceiling, h.idle_eq, ?_⟩
      intro smp' left' hg
      cases hg
    · have hgrow := h.grow_ok smp left hm
      refine ⟨h.core_eq, h.max_eq, ?_, h.need_nonneg, ?_, ?_, ?_⟩
      · simp only [busyThreads, List.countP_append, List.countP_cons, List.countP_nil,
          WorkerPc.countsBusy]
        simpa [busyThreads] using h.busy_eq
      · show p.m_idleWorkers + 1 + p.m_busyWorkers ≤ max_ths
        omega
      · intro hs
        have := h.idle_eq hs
        simp only [idleThreads, List.countP_append, List.countP_cons, List.countP_nil,
          WorkerPc.countsIdle] at this ⊢
        push_cast
        omega
      · intro smp' left' hg
        simp only [ManagerPc.growing.injEq] at hg
        rw [← hg.1]
        exact le_refl _
  | managerShrinkStep =>
    obtain ⟨smp, hm, ⟨-, hgt, rfl⟩ | ⟨-, rfl⟩⟩ := step_managerShrinkStep_cases hstep
    · refine ⟨h.core_eq, h.max_eq, h.busy_eq, ?_, h.ceiling, h.idle_eq, ?_⟩
      · have := shrinkAmount_bounds (by omega : 0 ≤ p.m_coreThs) hgt
        show 0 ≤ shrinkAmount smp.idle_workers_num p.m_coreThs
        omega
      · intro smp' left' hg
        cases hg
    · refine ⟨h.core_eq, h.max_eq, h.busy_eq, h.need_nonneg, h.ceiling, h.idle_eq, ?_⟩
      intro smp' left' hg
      cases hg

theorem countersOk_run {core_ths max_ths : Int} (hc : 0 ≤ core_ths)
    (acts : List (Action V E)) {p s : ThreadPool V E}
    (h : CountersOk core_ths max_ths p) (hrun : p.run acts = some s) :
    CountersOk core_ths max_ths s := by
  induction acts generalizing p with
  | nil =>
    simp only [run, Option.some.injEq] at hrun
    subst hrun
    exact h
  | cons a rest ih =>
    simp only [run] at hrun
    split at hrun
    · rename_i q hq
      exact ih (countersOk_step hc a h hq) hrun
    · cases hrun

theorem step_isShutdown {p s : ThreadPool V E} {a : Action V E}
    (hstep : p.step a = some s) (ha : a ≠ Action.shutdown) :
    s.m_isShutdown = p.m_isShutdown := by
  cases a with
  | submit body =>
    simp only [step, submit, Option.some.injEq] at hstep
    subst hstep
    rfl
  | shutdown => exact absurd rfl ha
  | workerWake i =>
    obtain ⟨-, hcases⟩ := step_workerWake_cases hstep
    rcases hcases with ⟨-, rfl⟩ | ⟨-, -, -, rfl⟩ | ⟨t, rest, -, -, rfl⟩ <;> rfl
  | workerBusy i =>
    obtain ⟨t, -, rfl⟩ := step_workerBusy_cases hstep
    rfl
  | workerRun i =>
    obtain ⟨t, -, rfl⟩ := step_workerRun_cases hstep
    rfl
  | workerIdle i =>
    obtain ⟨-, rfl⟩ := step_workerIdle_cases hstep
    rfl
  | managerCheck =>
    obtain ⟨-, rfl⟩ := step_managerCheck_cases hstep
    rfl
  | managerSampleQueue =>
    obtain ⟨k, need, pc, rfl⟩ := step_manager_shape (Or.inr (Or.inl rfl)) hstep
    rfl
  | managerSampleCounters =>
    obtain ⟨k, need, pc, rfl⟩ := step_manager_shape (Or.inr (Or.inr (Or.inl rfl))) hstep
    rfl
  | managerGrowStep =>
    obtain ⟨k, need, pc, rfl⟩ :=
      step_manager_shape (Or.inr (Or.inr (Or.inr (Or.inl rfl)))) hstep
    rfl
  | managerShrinkStep =>
    obtain ⟨k, need, pc, rfl⟩ :=
      step_manager_shape (Or.inr (Or.inr (Or.inr (Or.inr rfl)))) hstep
    rfl

theorem run_isShutdown {p s : ThreadPool V E} (acts : List (Action V E))
    (hrun : p.run acts = some s) (hns : Action.shutdown ∉ acts) :
    s.m_isShutdown = p.m_isShutdown := by
  induction acts generalizing p with
  | nil =>
    simp only [run, Option.some.injEq] at hrun
    subst hrun
    rfl
  | cons a rest ih =>
    simp only [run] at hrun
    split at hrun
    · rename_i q hq
      have ha : a ≠ Action.shutdown := fun e => hns (by simp [e])
      have hrest : Action.shutdown ∉ rest := fun hmem => hns (List.mem_cons_of_mem _ hmem)
      rw [ih hrun hrest, step_isShutdown hq ha]
    · cases hrun

theorem construct_not_shutdown {core_ths max_ths : Int} {p0 : ThreadPool V E}
    (h0 : construct core_ths max_ths = some p0) : p0.m_isShutdown = false := by
  obtain ⟨p, hp, -, -, -, -, -, hsd, -⟩ := construct_spec (V := V) (E := E) core_ths max_ths
  rw [h0] at hp
  cases hp
  exact hsd

/-- Until `shutdown` is called the two counters add up to the number of live
worker threads. -/
theorem counters_track_live_workers_before_shutdown (core_ths max_ths : Int)
    (hc : 0 ≤ core_ths) (hm : core_ths ≤ max_ths) (s : ThreadPool V E)
    (hs : Reachable core_ths max_ths s) (hsd : s.m_isShutdown = false) :
    s.m_busyWorkers + s.m_idleWorkers = s.liveWorkers := by
  obtain ⟨p0, acts, h0, hrun⟩ := hs
  have hinv := countersOk_run hc acts (countersOk_construct hc hm h0) hrun
  rw [liveWorkers_eq, hinv.busy_eq, hinv.idle_eq hsd]
  omega

/-- A step that is no shutdown request and no exit of a worker under a sample
the manager holds keeps the floor. -/
theorem floorOk_step {core_ths max_ths : Int} (hc : 0 ≤ core_ths)
    {p s : ThreadPool V E} (a : Action V E)
    (hcnt : CountersOk core_ths max_ths p) (hsd : p.m_isShutdown = false)
    (ha : a ≠ Action.shutdown)
    (haway : (p.manager.sample?.isSome && p.leavesOnNeed a) = false)
    (h : FloorOk core_ths p) (hstep : p.step a = some s) :
    FloorOk core_ths s := by
  have hfl := h.floor
  have hb0 : 0 ≤ p.m_busyWorkers := by
    rw [hcnt.busy_eq]
    exact busyThreads_nonneg p
  have hpc := hcnt.core_eq
  cases a with
  | submit body =>
    simp only [step, submit, Option.some.injEq] at hstep
    subst hstep
    exact ⟨h.floor, h.sample⟩
  | shutdown => exact absurd rfl ha
  | workerWake i =>
    obtain ⟨hw, hcases⟩ := step_workerWake_cases hstep
    rcases hcases with ⟨hpos, rfl⟩ | ⟨hle, hsd', ht, rfl⟩ | ⟨t, rest, hle, ht, rfl⟩
    · have hnone : p.manager.sample? = none := by
        simp only [leavesOnNeed, hpos, decide_True, Bool.and_true] at haway
        cases hsm : p.manager.sample? with
        | none => rfl
        | some smp => rw [hsm] at haway; cases haway
      refine ⟨?_, ?_⟩
      · show core_ths + (p.m_needExitWorkers - 1) ≤ p.m_idleWorkers - 1 + p.m_busyWorkers
        omega
      · intro smp hg
        rw [show ({ p with m_needExitWorkers := p.m_needExitWorkers - 1,
                           m_idleWorkers := p.m_idleWorkers - 1,
                           workers := p.workers.set i WorkerPc.exited } : ThreadPool V E).manager
              = p.manager from rfl, hnone] at hg
        cases hg
    · rw [hsd] at hsd'
      cases hsd'
    · exact ⟨h.floor, h.sample⟩
  | workerBusy i =>
    obtain ⟨t, hw, rfl⟩ := step_workerBusy_cases hstep
    refine ⟨?_, ?_⟩
    · show core_ths + p.m_needExitWorkers ≤ p.m_idleWorkers - 1 + (p.m_busyWorkers + 1)
      omega
    · intro smp hg
      have := h.sample smp hg
      show smp.idle_workers_num ≤ p.m_idleWorkers - 1 + (p.m_busyWorkers + 1)
      omega
  | workerRun i =>
    obtain ⟨t, hw, rfl⟩ := step_workerRun_cases hstep
    exact ⟨h.floor, h.sample⟩
  | workerIdle i =>
    obtain ⟨hw, rfl⟩ := step_workerIdle_cases hstep
    refine ⟨?_, ?_⟩
    · show core_ths + p.m_needExitWorkers ≤ p.m_idleWorkers + 1 + (p.m_busyWorkers - 1)
      omega
    · intro smp hg
      have := h.sample smp hg
      show smp.idle_workers_num ≤ p.m_idleWorkers + 1 + (p.m_busyWorkers - 1)
      omega
  | managerCheck =>
    obtain ⟨hm, rfl⟩ := step_managerCheck_cases hstep
    refine ⟨h.floor, ?_⟩
    intro smp hg
    simp only at hg
    split at hg <;> cases hg
  | managerSampleQueue =>
    obtain ⟨hm, rfl⟩ := step_managerSampleQueue_cases hstep
    refine ⟨h.floor, ?_⟩
    intro smp hg
    cases hg
  | managerSampleCounters =>
    obtain ⟨n, hm, ⟨-, rfl⟩ | ⟨-, rfl⟩⟩ := step_managerSampleCounters_cases hstep
    · refine ⟨h.floor, ?_⟩
      intro smp hg
      simp only [ManagerPc.sample?, Option.some.injEq] at hg
      rw [← hg]
      show p.m_idleWorkers ≤ p.m_idleWorkers + p.m_busyWorkers
      omega
    · refine ⟨h.floor, ?_⟩
      intro smp hg
      simp only [ManagerPc.sample?, Option.some.injEq] at hg
      rw [← hg]
      show p.m_idleWorkers ≤ p.m_idleWorkers + p.m_busyWorkers
      omega
  | managerGrowStep =>
    obtain ⟨smp, left, hm, ⟨rfl, -⟩ | ⟨n, -, hlt, rfl⟩⟩ := step_managerGrowStep_cases hstep
    · refine ⟨h.floor, ?_⟩
      intro smp' hg
      simp only [ManagerPc.sample?, Option.some.injEq] at hg
      rw [← hg]
      exact h.sample smp (by rw [hm]; rfl)
    · have hsmp := h.sample smp (by rw [hm]; rfl)
      refine ⟨?_, ?_⟩
      · show core_ths + p.m_needExitWorkers ≤ p.m_idleWorkers + 1 + p.m_busyWorkers
        omega
      · intro smp' hg
        simp only [ManagerPc.sample?, Option.some.injEq] at hg
        rw [← hg]
        show smp.idle_workers_num ≤ p.m_idleWorkers + 1 + p.m_busyWorkers
        omega
  | managerShrinkStep =>
    obtain ⟨smp, hm, ⟨-, hgt, rfl⟩ | ⟨-, rfl⟩⟩ := step_managerShrinkStep_cases hstep
    · have hsmp := h.sample smp (by rw [hm]; rfl)
      have hbd := shrinkAmount_bounds (by omega : 0 ≤ p.m_coreThs) hgt
      refine ⟨?_, ?_⟩
      · show core_ths + shrinkAmount smp.idle_workers_num p.m_coreThs
          ≤ p.m_idleWorkers + p.m_busyWorkers
        omega
      · intro smp' hg
        cases hg
    · refine ⟨h.floor, ?_⟩
      intro smp' hg
      cases hg

theorem floorOk_run {core_ths max_ths : Int} (hc : 0 ≤ core_ths)
    (acts : List (Action V E)) {p s : ThreadPool V E}
    (hcnt : CountersOk core_ths max_ths p) (hsd : p.m_isShutdown = false)
    (hns : Action.shutdown ∉ acts) (haway : p.exitsAwayFromPass acts = true)
    (h : FloorOk core_ths p) (hrun : p.run acts = some s) :
    FloorOk core_ths s := by
  induction acts generalizing p with
  | nil =>
    simp only [run, Option.some.injEq] at hrun
    subst hrun
    exact h
  | cons a rest ih =>
    simp only [run] at hrun
    split at hrun
    · rename_i q hq
      have ha : a ≠ Action.shutdown := fun e => hns (by simp [e])
      have hrest : Action.shutdown ∉ rest := fun hmem => hns (List.mem_cons_of_mem _ hmem)
      simp only [exitsAwayFromPass, hq, Bool.and_eq_true, Bool.not_eq_true'] at haway
      have hsq : q.m_isShutdown = false := by rw [step_isShutdown hq ha]; exact hsd
      exact ih (countersOk_step hc a hcnt hq) hsq hrest haway.2
        (floorOk_step hc a hcnt hsd ha haway.1 h hq) hrun
    · cases hrun

/-! ## The bounds on the number of workers -/

/-- C4: for a pool built with `0 <= coreCount <= maxCount`,
`busyCount + idleCount <= maxCount` holds in every state a schedule of
submissions, shutdown requests, worker steps and manager steps can reach,
whatever the other threads do between the steps of a manager pass; and
a grow pass of the manager (and so a whole manager pass) that starts from any
state with `total <= maxCount` ends with `total <= maxCount`, whatever the
queue depth. -/
theorem worker_ceiling (core_ths max_ths : Int) (hc : 0 ≤ core_ths) (hm : core_ths ≤ max_ths)
    (s : ThreadPool V E) (hs : Reachable core_ths max_ths s) :
    s.m_busyWorkers + s.m_idleWorkers ≤ max_ths ∧
    (∀ p : ThreadPool V E, p.m_busyWorkers + p.m_idleWorkers ≤ p.m_maxThs →
      (managerGrow (managerSample p) p).m_busyWorkers
          + (managerGrow (managerSample p) p).m_idleWorkers ≤ p.m_maxThs ∧
      (managerTick p).m_busyWorkers + (managerTick p).m_idleWorkers ≤ p.m_maxThs) := by
  obtain ⟨p0, acts, h0, hrun⟩ := hs
  have hinv := countersOk_run hc acts (countersOk_construct hc hm h0) hrun
  refine ⟨by have := hinv.ceiling; omega, ?_⟩
  intro p hp
  constructor
  · rw [managerGrow_eq]
    split
    · simp only [spawnMany]
      omega
    · exact hp
  · obtain ⟨k, hk, hi, hb, -⟩ := managerTick_counters p
    rw [hi, hb]
    split at hk <;> omega

/-- C4 at the end of `demoSchedule`, run on the pool `construct 1 3` returns. -/
theorem worker_ceiling_witness :
    Reachable 1 3 (demoPool.runD demoSchedule) ∧
    (demoPool.runD demoSchedule).m_busyWorkers + (demoPool.runD demoSchedule).m_idleWorkers ≤ 3 :=
  ⟨⟨demoPool, demoSchedule, rfl, rfl⟩,
   (worker_ceiling 1 3 (by decide) (by decide) (demoPool.runD demoSchedule)
      ⟨demoPool, demoSchedule, rfl, rfl⟩).1⟩

/-- C5, as stated, is false: the claim says that a pool built with
`0 <= coreCount <= maxCount` and never shut down keeps
`busyCount + idleCount >= coreCount` along every schedule.  On the pool
`construct 1 3` returns, `staleSampleSchedule` requests no shutdown and ends
with `busyCount + idleCount = 0`, no live worker and three tasks in the queue:
the manager writes into `m_needExitWorkers` what it computed from counters it
read before a worker left. -/
theorem worker_floor_lost_with_stale_sample :
    ¬ (∀ (core_ths max_ths : Int) (p0 s : ThreadPool Nat Nat) (acts : List (Action Nat Nat)),
        0 ≤ core_ths → core_ths ≤ max_ths → construct core_ths max_ths = some p0 →
        p0.run acts = some s → Action.shutdown ∉ acts →
          core_ths ≤ s.m_busyWorkers + s.m_idleWorkers) ∧
    ((construct 1 3 : Option (ThreadPool Nat Nat)).bind
        (fun p => p.run staleSampleSchedule)).map
      (fun s => (s.m_coreThs, s.m_busyWorkers + s.m_idleWorkers, s.liveWorkers,
        s.m_tasks.length, s.m_isShutdown))
      = some (1, 0, 0, 3, false) := by
  refine ⟨fun h => ?_, by decide⟩
  have h1 := h 1 3 demoPool (demoPool.runD staleSampleSchedule) staleSampleSchedule
    (by decide) (by decide) rfl rfl (by simp [staleSampleSchedule])
  revert h1
  decide

/-- C5, amended: for a pool built with `0 <= coreCount <= maxCount`, in every
state reached by a schedule of submissions, worker steps and manager steps
that contains no shutdown request and in which no worker leaves through the
exit check between the counter sample of a manager pass and the shrink block
of the same pass (so in particular when every manager pass runs without
interruption), `busyCount + idleCount >= coreCount`; moreover
`busyCount + idleCount - pendingExit >= coreCount`, so the workers that the
value written by the manager still allows to leave never take the pool below
`coreCount`. -/
theorem worker_floor (core_ths max_ths : Int) (hc : 0 ≤ core_ths) (hm : core_ths ≤ max_ths)
    (p0 s : ThreadPool V E) (acts : List (Action V E))
    (h0 : construct core_ths max_ths = some p0) (hrun : p0.run acts = some s)
    (hns : Action.shutdown ∉ acts) (haway : p0.exitsAwayFromPass acts = true) :
    core_ths ≤ s.m_busyWorkers + s.m_idleWorkers ∧
    core_ths ≤ s.m_busyWorkers + s.m_idleWorkers - s.m_needExitWorkers ∧
    0 ≤ s.m_needExitWorkers := by
  have hinv := countersOk_run hc acts (countersOk_construct hc hm h0) hrun
  have hfl := floorOk_run hc acts (countersOk_construct hc hm h0)
    (construct_not_shutdown h0) hns haway (floorOk_construct hc h0) hrun
  have hfloor := hfl.floor
  have hneed := hinv.need_nonneg
  omega

/-- C5 on `demoSchedule`: after the manager asked two of three idle workers to
leave and both left, one worker, `coreCount`, is left. -/
theorem worker_floor_witness :
    Action.shutdown ∉ demoSchedule ∧ demoPool.exitsAwayFromPass demoSchedule = true ∧
    (1 : Int) ≤ (demoPool.runD demoSchedule).m_busyWorkers
      + (demoPool.runD demoSchedule).m_idleWorkers ∧
    (demoPool.runD demoSchedule).m_busyWorkers + (demoPool.runD demoSchedule).m_idleWorkers = 1 :=
  ⟨by simp [demoSchedule], by decide,
   (worker_floor 1 3 (by decide) (by decide) demoPool (demoPool.runD demoSchedule) demoSchedule
      rfl rfl (by simp [demoSchedule]) (by decide)).1,
   by decide⟩

/-- C8 at its failing input: a pool built by `construct 1 1`, then `shutdown`,
then the only worker wakes.  The queue is empty and the flag is up, so the
worker returns through line 117, which leaves `m_idleWorkers` alone:
`busyCount + idleCount` is 1 and no worker thread is alive.  The other way out
of the loop, line 113, takes the leaving worker off `m_idleWorkers`. -/
theorem shutdown_exit_keeps_idle_count :
    ((construct 1 1 : Option (ThreadPool Nat Nat)).bind
        (fun p => p.run [Action.shutdown, Action.workerWake 0])).map
      (fun s => (s.m_busyWorkers + s.m_idleWorkers, s.liveWorkers,
        s.workers.map WorkerPc.isLive))
      = some (1, 0, [false]) := by
  decide

/-! ## The queue along a schedule -/

theorem queue_step (p s : ThreadPool V E) (a : Action V E) (hstep : p.step a = some s) :
    p.m_tasks ++ p.submittedBy a = p.takenBy a ++ s.m_tasks := by
  cases a with
  | submit body =>
    simp only [step, submit, Option.some.injEq] at hstep
    subst hstep
    simp [submittedBy, takenBy]
  | shutdown =>
    simp only [step, shutdown, Option.some.injEq] at hstep
    subst hstep
    simp [submittedBy, takenBy]
  | workerWake i =>
    simp only [step] at hstep
    split at hstep
    · rename_i hw
      split at hstep
      · rename_i q hc
        cases hstep
        rcases workerCritical_cases hc with ⟨-, -, rfl⟩ | ⟨hb, -⟩ | ⟨t, rest, hb, -⟩
        · simp [submittedBy, takenBy, hw, hc]
        · cases hb
        · cases hb
      · rename_i q hc
        cases hstep
        rcases workerCritical_cases hc with ⟨hb, -⟩ | ⟨-, -, -, -, rfl⟩ | ⟨t, rest, hb, -⟩
        · cases hb
        · simp [submittedBy, takenBy, hw, hc]
        · cases hb
      · rename_i t q hc
        cases hstep
        rcases workerCritical_cases hc with ⟨hb, -⟩ | ⟨hb, -⟩ | ⟨t', rest, hb, -, ht, rfl⟩
        · cases hb
        · cases hb
        · cases hb
          simp [submittedBy, takenBy, hw, hc, ht]
      · cases hstep
    · cases hstep
  | workerBusy i =>
    obtain ⟨t, -, rfl⟩ := step_workerBusy_cases hstep
    simp [submittedBy, takenBy]
  | workerRun i =>
    obtain ⟨t, -, rfl⟩ := step_workerRun_cases hstep
    simp [submittedBy, takenBy]
  | workerIdle i =>
    obtain ⟨-, rfl⟩ := step_workerIdle_cases hstep
    simp [submittedBy, takenBy]
  | managerCheck =>
    obtain ⟨-, rfl⟩ := step_managerCheck_cases hstep
    simp [submittedBy, takenBy]
  | managerSampleQueue =>
    obtain ⟨k, need, pc, rfl⟩ := step_manager_shape (Or.inr (Or.inl rfl)) hstep
    simp [submittedBy, takenBy]
  | managerSampleCounters =>
    obtain ⟨k, need, pc, rfl⟩ := step_manager_shape (Or.inr (Or.inr (Or.inl rfl))) hstep
    simp [submittedBy, takenBy]
  | managerGrowStep =>
    obtain ⟨k, need, pc, rfl⟩ :=
      step_manager_shape (Or.inr (Or.inr (Or.inr (Or.inl rfl)))) hstep
    simp [submittedBy, takenBy]
  | managerShrinkStep =>
    obtain ⟨k, need, pc, rfl⟩ :=
      step_manager_shape (Or.inr (Or.inr (Or.inr (Or.inr rfl)))) hstep
    simp [submittedBy, takenBy]

theorem queue_run (acts : List (Action V E)) (p s : ThreadPool V E)
    (hrun : p.run acts = some s) :
    p.m_tasks ++ p.submittedTasks acts = p.takenTasks acts ++ s.m_tasks := by
  induction acts generalizing p with
  | nil =>
    simp only [run, Option.some.injEq] at hrun
    subst hrun
    simp [submittedTasks, takenTasks]
  | cons a rest ih =>
    simp only [run] at hrun
    split at hrun
    · rename_i q hq
      have h1 := queue_step p q a hq
      have h2 := ih q hrun
      simp only [submittedTasks, takenTasks, hq]
      rw [← List.append_assoc, h1, List.append_assoc, h2, List.append_assoc]
    · cases hrun

/-- C3: the queue is first in, first out.  Along every schedule run on a pool,
the queue at the start followed by the tasks submitted, in the order of the
`submit` calls, is the sequence of tasks the workers popped, in the order of
the pops over all workers, followed by the queue at the end.  So on a fresh
pool the popped tasks are the first submitted ones, in submission order, and
all of them once the queue is empty again.  A `submit` appends its task at the
tail of the queue and the only removal, in the first block of the worker loop,
takes the head. -/
theorem queue_is_fifo (p s : ThreadPool V E) (acts : List (Action V E))
    (hrun : p.run acts = some s) :
    p.m_tasks ++ p.submittedTasks acts = p.takenTasks acts ++ s.m_tasks ∧
    (p.m_tasks = [] → p.submittedTasks acts = p.takenTasks acts ++ s.m_tasks) ∧
    (p.m_tasks = [] → s.m_tasks = [] → p.takenTasks acts = p.submittedTasks acts) ∧
    (∀ (q : ThreadPool V E) (body : Unit → Outcome V E),
      (q.submit body).2.m_tasks = q.m_tasks ++ [{ slot := (q.submit body).1, body := body }]) ∧
    (∀ (q q' : ThreadPool V E) (t : Task V E),
      q.workerCritical = some (WakeBranch.took t, q') → q.m_tasks = t :: q'.m_tasks) := by
  have h := queue_run acts p s hrun
  refine ⟨h, ?_, ?_, ?_, ?_⟩
  · intro hp
    rw [hp, List.nil_append] at h
    exact h
  · intro hp hs
    rw [hp, hs, List.nil_append, List.append_nil] at h
    exact h.symm
  · intro q body
    rfl
  · intro q q' t hc
    rcases workerCritical_cases hc with ⟨hb, -⟩ | ⟨hb, -⟩ | ⟨t', rest, hb, -, ht, rfl⟩
    · cases hb
    · cases hb
    · cases hb
      exact ht

/-- C3 on `demoSchedule`: the four tasks are popped in the order of their
submission, by three different workers. -/
theorem queue_is_fifo_witness :
    (demoPool.takenTasks demoSchedule).map Task.slot = [0, 1, 2, 3] ∧
    (demoPool.submittedTasks demoSchedule).map Task.slot = [0, 1, 2, 3] ∧
    demoPool.takenTasks demoSchedule = demoPool.submittedTasks demoSchedule :=
  ⟨by decide, by decide,
   (queue_is_fifo demoPool (demoPool.runD demoSchedule) demoSchedule rfl).2.2.1 rfl rfl⟩

/-! ## The futures along a schedule -/

theorem mem_holds_set {ws : List (WorkerPc V E)} {i : Nat} {w : WorkerPc V E} {t : Task V E}
    (h : t ∈ (ws.set i w).filterMap WorkerPc.holds) :
    t ∈ ws.filterMap WorkerPc.holds ∨ w.holds = some t := by
  rw [List.mem_filterMap] at h
  obtain ⟨w', hmem, hw'⟩ := h
  rcases List.mem_or_eq_of_mem_set hmem with hin | heq
  · exact Or.inl (List.mem_filterMap.mpr ⟨w', hin, hw'⟩)
  · subst heq
    exact Or.inr hw'

theorem mem_holds_of_getElem? {ws : List (WorkerPc V E)} {i : Nat} {w : WorkerPc V E}
    {t : Task V E} (hw : ws[i]? = some w) (ht : w.holds = some t) :
    t ∈ ws.filterMap WorkerPc.holds :=
  List.mem_filterMap.mpr ⟨w, List.getElem?_mem hw, ht⟩

/-- Workers that were just started hold no task. -/
theorem pending_spawned {p : ThreadPool V E} {k : Nat} {need : Int} {pc : ManagerPc}
    {t : Task V E}
    (ht : t ∈ ({ p with workers := p.workers ++ List.replicate k WorkerPc.waiting,
                        m_idleWorkers := p.m_idleWorkers + (k : Int),
                        m_needExitWorkers := need, manager := pc } : ThreadPool V E).pendingTasks) :
    t ∈ p.pendingTasks := by
  simp only [pendingTasks, List.mem_append, List.filterMap_append] at ht ⊢
  rcases ht with h | h | h
  · exact Or.inl h
  · exact Or.inr h
  · rw [List.mem_filterMap] at h
    obtain ⟨w, hmem, hw⟩ := h
    rw [List.eq_of_mem_replicate hmem] at hw
    cases hw

/-- A step adds no task to the pending ones, except the one a `submit` creates. -/
theorem pending_step {p s : ThreadPool V E} {a : Action V E} (hstep : p.step a = some s)
    {t : Task V E} (ht : t ∈ s.pendingTasks) :
    t ∈ p.pendingTasks ∨
      ∃ body, a = Action.submit body ∧ t = { slot := p.futures.length, body := body } := by
  cases a with
  | submit body =>
    simp only [step, submit, Option.some.injEq] at hstep
    subst hstep
    simp only [pendingTasks, List.mem_append, List.mem_singleton] at ht ⊢
    rcases ht with (h | h) | h
    · exact Or.inl (Or.inl h)
    · exact Or.inr ⟨body, rfl, h⟩
    · exact Or.inl (Or.inr h)
  | shutdown =>
    simp only [step, shutdown, Option.some.injEq] at hstep
    subst hstep
    exact Or.inl ht
  | workerWake i =>
    left
    obtain ⟨hw, hcases⟩ := step_workerWake_cases hstep
    rcases hcases with ⟨-, rfl⟩ | ⟨-, -, -, rfl⟩ | ⟨t', rest, -, htasks, rfl⟩
    · simp only [pendingTasks, List.mem_append] at ht ⊢
      rcases ht with h | h
      · exact Or.inl h
      · rcases mem_holds_set h with h' | h'
        · exact Or.inr h'
        · cases h'
    · simp only [pendingTasks, List.mem_append] at ht ⊢
      rcases ht with h | h
      · exact Or.inl h
      · rcases mem_holds_set h with h' | h'
        · exact Or.inr h'
        · cases h'
    · simp only [pendingTasks, List.mem_append] at ht ⊢
      rcases ht with h | h
      · exact Or.inl (by rw [htasks]; exact List.mem_cons_of_mem _ h)
      · rcases mem_holds_set h with h' | h'
        · exact Or.inr h'
        · simp only [WorkerPc.holds, Option.some.injEq] at h'
          subst h'
          exact Or.inl (by rw [htasks]; exact List.mem_cons_self _ _)
  | workerBusy i =>
    left
    obtain ⟨t', hw, rfl⟩ := step_workerBusy_cases hstep
    simp only [pendingTasks, List.mem_append] at ht ⊢
    rcases ht with h | h
    · exact Or.inl h
    · rcases mem_holds_set h with h' | h'
      · exact Or.inr h'
      · simp only [WorkerPc.holds, Option.some.injEq] at h'
        subst h'
        exact Or.inr (mem_holds_of_getElem? hw rfl)
  | workerRun i =>
    left
    obtain ⟨t', hw, rfl⟩ := step_workerRun_cases hstep
    simp only [pendingTasks, List.mem_append] at ht ⊢
    rcases ht with h | h
    · exact Or.inl h
    · rcases mem_holds_set h with h' | h'
      · exact Or.inr h'
      · cases h'
  | workerIdle i =>
    left
    obtain ⟨hw, rfl⟩ := step_workerIdle_cases hstep
    simp only [pendingTasks, List.mem_append] at ht ⊢
    rcases ht with h | h
    · exact Or.inl h
    · rcases mem_holds_set h with h' | h'
      · exact Or.inr h'
      · cases h'
  | managerCheck =>
    left
    obtain ⟨-, rfl⟩ := step_managerCheck_cases hstep
    exact ht
  | managerSampleQueue =>
    obtain ⟨k, need, pc, rfl⟩ := step_manager_shape (Or.inr (Or.inl rfl)) hstep
    exact Or.inl (pending_spawned ht)
  | managerSampleCounters =>
    obtain ⟨k, need, pc, rfl⟩ := step_manager_shape (Or.inr (Or.inr (Or.inl rfl))) hstep
    exact Or.inl (pending_spawned ht)
  | managerGrowStep =>
    obtain ⟨k, need, pc, rfl⟩ :=
      step_manager_shape (Or.inr (Or.inr (Or.inr (Or.inl rfl)))) hstep
    exact Or.inl (pending_spawned ht)
  | managerShrinkStep =>
    obtain ⟨k, need, pc, rfl⟩ :=
      step_manager_shape (Or.inr (Or.inr (Or.inr (Or.inr rfl)))) hstep
    exact Or.inl (pending_spawned ht)

/-- What a step does to the table of shared states: it grows by one empty slot
on a `submit`, the running task stores its outcome on `task()`, and nothing
else touches it. -/
theorem futures_step {p s : ThreadPool V E} {a : Action V E} (hstep : p.step a = some s) :
    s.futures = p.futures ∨
    (∃ body, a = Action.submit body ∧ s.futures = p.futures ++ [none]) ∨
    (∃ i t, a = Action.workerRun i ∧ p.workers[i]? = some (WorkerPc.running t) ∧
      s.futures = p.futures.set t.slot (some (t.body ()))) := by
  cases a with
  | submit body =>
    simp only [step, submit, Option.some.injEq] at hstep
    subst hstep
    exact Or.inr (Or.inl ⟨body, rfl, rfl⟩)
  | shutdown =>
    simp only [step, shutdown, Option.some.injEq] at hstep
    subst hstep
    exact Or.inl rfl
  | workerWake i =>
    obtain ⟨-, hcases⟩ := step_workerWake_cases hstep
    rcases hcases with ⟨-, rfl⟩ | ⟨-, -, -, rfl⟩ | ⟨t', rest, -, -, rfl⟩ <;> exact Or.inl rfl
  | workerBusy i =>
    obtain ⟨t', -, rfl⟩ := step_workerBusy_cases hstep
    exact Or.inl rfl
  | workerRun i =>
    obtain ⟨t', hw, rfl⟩ := step_workerRun_cases hstep
    exact Or.inr (Or.inr ⟨i, t', rfl, hw, rfl⟩)
  | workerIdle i =>
    obtain ⟨-, rfl⟩ := step_workerIdle_cases hstep
    exact Or.inl rfl
  | managerCheck =>
    obtain ⟨-, rfl⟩ := step_managerCheck_cases hstep
    exact Or.inl rfl
  | managerSampleQueue =>
    obtain ⟨k, need, pc, rfl⟩ := step_manager_shape (Or.inr (Or.inl rfl)) hstep
    exact Or.inl rfl
  | managerSampleCounters =>
    obtain ⟨k, need, pc, rfl⟩ := step_manager_shape (Or.inr (Or.inr (Or.inl rfl))) hstep
    exact Or.inl rfl
  | managerGrowStep =>
    obtain ⟨k, need, pc, rfl⟩ :=
      step_manager_shape (Or.inr (Or.inr (Or.inr (Or.inl rfl)))) hstep
    exact Or.inl rfl
  | managerShrinkStep =>
    obtain ⟨k, need, pc, rfl⟩ :=
      step_manager_shape (Or.inr (Or.inr (Or.inr (Or.inr rfl)))) hstep
    exact Or.inl rfl

theorem slotsAllocated_step {p s : ThreadPool V E} {a : Action V E}
    (hstep : p.step a = some s) (h : SlotsAllocated p) : SlotsAllocated s := by
  intro t ht
  have hlen : p.futures.length ≤ s.futures.length ∧
      ((∃ body, a = Action.submit body) → p.futures.length < s.futures.length) := by
    rcases futures_step hstep with hf | ⟨body, -, hf⟩ | ⟨i, t', ha, -, hf⟩
    · rw [hf]
      refine ⟨le_refl _, ?_⟩
      rintro ⟨body, rfl⟩
      simp only [step, submit, Option.some.injEq] at hstep
      subst hstep
      simp at hf
    · rw [hf]
      simp
    · rw [hf]
      refine ⟨by simp, ?_⟩
      rintro ⟨body, rfl⟩
      cases ha
  rcases pending_step hstep ht with hold | ⟨body, ha, rfl⟩
  · exact lt_of_lt_of_le (h t hold) hlen.1
  · exact hlen.2 ⟨body, ha⟩

theorem slotsAllocated_run (acts : List (Action V E)) {p s : ThreadPool V E}
    (hrun : p.run acts = some s) (h : SlotsAllocated p) : SlotsAllocated s := by
  induction acts generalizing p with
  | nil =>
    simp only [run, Option.some.injEq] at hrun
    subst hrun
    exact h
  | cons a rest ih =>
    simp only [run] at hrun
    split at hrun
    · rename_i q hq
      exact ih hrun (slotsAllocated_step hq h)
    · cases hrun

theorem slotsAllocated_of_reachable {core_ths max_ths : Int} {p : ThreadPool V E}
    (hp : Reachable core_ths max_ths p) : SlotsAllocated p := by
  obtain ⟨p0, acts, h0, hrun⟩ := hp
  refine slotsAllocated_run acts hrun ?_
  obtain ⟨q, hq, -, hws, -, -, htasks, -⟩ := construct_spec (V := V) (E := E) core_ths max_ths
  rw [h0] at hq
  cases hq
  intro t ht
  simp only [pendingTasks, htasks, hws, List.nil_append, List.mem_filterMap] at ht
  obtain ⟨w, hmem, hw⟩ := ht
  rw [List.eq_of_mem_replicate hmem] at hw
  cases hw

/-- A step leaves the future `handle` as it is, or stores the outcome `r` in it. -/
theorem get_step {handle : Nat} {r : Outcome V E} {p s : ThreadPool V E} {a : Action V E}
    (h : HandleOk handle r p) (hstep : p.step a = some s) :
    s.get handle = p.get handle ∨ s.get handle = some r := by
  rcases futures_step hstep with hf | ⟨body, -, hf⟩ | ⟨i, t, -, hw, hf⟩
  · left
    simp only [get, hf]
  · left
    simp only [get, hf, List.getElem?_append_left h.allocated]
  · by_cases hslot : t.slot = handle
    · right
      have hr : t.body () = r :=
        h.bodies t (by
          simp only [pendingTasks, List.mem_append]
          exact Or.inr (mem_holds_of_getElem? hw rfl)) hslot
      have halloc := h.allocated
      simp only [get, hf, hslot, hr, List.getElem?_set_self halloc, Option.join]
      rfl
    · left
      simp only [get, hf, List.getElem?_set_ne hslot]

theorem handleOk_step {handle : Nat} {r : Outcome V E} {p s : ThreadPool V E} {a : Action V E}
    (h : HandleOk handle r p) (hstep : p.step a = some s) : HandleOk handle r s := by
  refine ⟨?_, ?_, ?_⟩
  · have halloc := h.allocated
    rcases futures_step hstep with hf | ⟨body, -, hf⟩ | ⟨i, t, -, -, hf⟩ <;> rw [hf] <;> simp <;> omega
  · intro t ht hslot
    rcases pending_step hstep ht with hold | ⟨body, -, rfl⟩
    · exact h.bodies t hold hslot
    · have halloc := h.allocated
      simp only at hslot
      omega
  · rcases get_step h hstep with hg | hg
    · rw [hg]
      exact h.result
    · exact Or.inr hg

theorem handleOk_run {handle : Nat} {r : Outcome V E} (acts : List (Action V E))
    {p s : ThreadPool V E} (h : HandleOk handle r p) (hrun : p.run acts = some s) :
    HandleOk handle r s ∧ (p.get handle = some r → s.get handle = some r) := by
  induction acts generalizing p with
  | nil =>
    simp only [run, Option.some.injEq] at hrun
    subst hrun
    exact ⟨h, id⟩
  | cons a rest ih =>
    simp only [run] at hrun
    split at hrun
    · rename_i q hq
      obtain ⟨hok, hkeep⟩ := ih (handleOk_step h hq) hrun
      refine ⟨hok, fun hp => hkeep ?_⟩
      rcases get_step h hq with hg | hg
      · rw [hg]
        exact hp
      · exact hg
    · cases hrun

/-- Right after `submit` the returned future is not ready, and the only pending
task that writes into it is the one just enqueued. -/
theorem handleOk_submit {p : ThreadPool V E} (hp : SlotsAllocated p)
    (body : Unit → Outcome V E) :
    HandleOk (p.submit body).1 (body ()) (p.submit body).2 ∧
    (p.submit body).2.get (p.submit body).1 = none := by
  have hget : (p.submit body).2.get (p.submit body).1 = none := by
    simp [submit, get]
  refine ⟨⟨?_, ?_, Or.inl hget⟩, hget⟩
  · simp [submit]
  · intro t ht hslot
    simp only [submit, pendingTasks, List.mem_append, List.mem_singleton] at ht hslot
    rcases ht with (h | h) | h
    · have := hp t (by simp only [pendingTasks, List.mem_append]; exact Or.inl h)
      omega
    · rw [h]
    · have := hp t (by simp only [pendingTasks, List.mem_append]; exact Or.inr h)
      omega

/-! ## Results through the future -/

/-- C2: the result of a submitted callable comes back through its future.
Take any reachable pool, `submit` the callable `fn` bound to `args`, and run any
schedule; when a worker then runs the unit that this `submit` enqueued (its
`task()` step), then at every later point `get()` on the returned future yields
exactly what `fn args` produced: the value when it returned one, the failure
when it raised one.  Until that step `get()` is not ready.  The step that runs
the unit leaves the counters alone and the worker alive, at the point of the
loop just after `task()`, from where it counts itself idle again: nothing of
the failure reaches the worker loop. -/
theorem submit_round_trip {A : Type} (core_ths max_ths : Int) (p : ThreadPool V E)
    (hp : Reachable core_ths max_ths p) (fn : A → Outcome V E) (args : A)
    (before after : List (Action V E)) (i : Nat) (t : Task V E) (s1 s2 s3 : ThreadPool V E)
    (hbefore : (p.submit (bind fn args)).2.run before = some s1)
    (hworker : s1.workers[i]? = some (WorkerPc.running t))
    (hunit : t.slot = (p.submit (bind fn args)).1)
    (hexec : s1.step (Action.workerRun i) = some s2)
    (hafter : s2.run after = some s3) :
    s3.get (p.submit (bind fn args)).1 = some (fn args) ∧
    (∀ v, fn args = Outcome.value v →
      s3.get (p.submit (bind fn args)).1 = some (Outcome.value v)) ∧
    (∀ e, fn args = Outcome.failure e →
      s3.get (p.submit (bind fn args)).1 = some (Outcome.failure e)) ∧
    (p.submit (bind fn args)).2.get (p.submit (bind fn args)).1 = none ∧
    s2.workers[i]? = some WorkerPc.ran ∧
    (∃ s, s2.step (Action.workerIdle i) = some s ∧ s.workers[i]? = some WorkerPc.waiting) ∧
    s2.m_busyWorkers = s1.m_busyWorkers ∧ s2.m_idleWorkers = s1.m_idleWorkers ∧
    s2.m_needExitWorkers = s1.m_needExitWorkers ∧ s2.m_tasks = s1.m_tasks := by
  obtain ⟨h0, hnone⟩ := handleOk_submit (slotsAllocated_of_reachable hp) (bind fn args)
  have hr : bind fn args () = fn args := rfl
  rw [hr] at h0
  obtain ⟨h1, -⟩ := handleOk_run before h0 hbefore
  obtain ⟨t', hw', hs2⟩ := step_workerRun_cases hexec
  rw [hworker] at hw'
  cases hw'
  have hlt : i < s1.workers.length := by
    rcases List.getElem?_eq_some.mp hworker with ⟨hlt, -⟩
    exact hlt
  have hbody : t.body () = fn args :=
    h1.bodies t (by
      simp only [pendingTasks, List.mem_append]
      exact Or.inr (mem_holds_of_getElem? hworker rfl)) hunit
  have hget2 : s2.get (p.submit (bind fn args)).1 = some (fn args) := by
    have halloc := h1.allocated
    rw [hs2]
    simp only [get, hunit, hbody, List.getElem?_set_self halloc, Option.join]
    rfl
  have hget3 := (handleOk_run after (handleOk_step h1 hexec) hafter).2 hget2
  have hran : s2.workers[i]? = some WorkerPc.ran := by
    rw [hs2]
    simp only [List.getElem?_set_self hlt]
  refine ⟨hget3, fun v hv => by rw [hget3, hv], fun e he => by rw [hget3, he], hnone, hran,
    ?_, ?_, ?_, ?_, ?_⟩
  · have hlt2 : i < s2.workers.length := by
      rcases List.getElem?_eq_some.mp hran with ⟨hlt2, -⟩
      exact hlt2
    refine ⟨{ s2.workerMarkIdle with workers := s2.workers.set i WorkerPc.waiting }, ?_, ?_⟩
    · simp only [step, hran]
    · simp only [List.getElem?_set_self hlt2]
  · rw [hs2]
  · rw [hs2]
  · rw [hs2]
  · rw [hs2]

/-- C2 on the pool `construct 1 3` returns: the callable raises `7` on the
argument `7`; worker 0 pops the unit, runs it and goes back to the wait, and
`get()` yields that failure. -/
theorem submit_round_trip_witness :
    ((demoPool.submit (bind demoCallable 7)).2.runD
        [Action.workerWake 0, Action.workerBusy 0, Action.workerRun 0, Action.workerIdle 0]).get 0
      = some (Outcome.failure 7) :=
  (submit_round_trip 1 3 demoPool ⟨demoPool, [], rfl, rfl⟩ demoCallable 7
    [Action.workerWake 0, Action.workerBusy 0] [Action.workerIdle 0] 0
    { slot := 0, body := bind demoCallable 7 }
    ((demoPool.submit (bind demoCallable 7)).2.runD [Action.workerWake 0, Action.workerBusy 0])
    ((demoPool.submit (bind demoCallable 7)).2.runD
      [Action.workerWake 0, Action.workerBusy 0, Action.workerRun 0])
    ((demoPool.submit (bind demoCallable 7)).2.runD
      [Action.workerWake 0, Action.workerBusy 0, Action.workerRun 0, Action.workerIdle 0])
    rfl rfl rfl rfl rfl).1

/-! ## The manager pass without interruption -/

theorem run_append (acts1 acts2 : List (Action V E)) {p q : ThreadPool V E}
    (h : p.run acts1 = some q) : p.run (acts1 ++ acts2) = q.run acts2 := by
  induction acts1 generalizing p with
  | nil =>
    simp only [run, Option.some.injEq] at h
    subst h
    rfl
  | cons a rest ih =>
    simp only [run] at h
    split at h
    · rename_i r hr
      simp only [List.cons_append, run, hr]
      exact ih h
    · cases h

theorem growLoop_manager (n : Nat) (t : Int) (q : ThreadPool V E) (pc : ManagerPc) :
    growLoop n t { q with manager := pc } = { growLoop n t q with manager := pc } := by
  induction n generalizing t q with
  | zero => rfl
  | succ n ih =>
    simp only [growLoop]
    split
    · exact ih _ (spawnWorker q)
    · rfl

/-- From the test of the grow loop the manager, left alone, reaches the test of
the shrink block with the pool `growLoop` computes. -/
theorem grow_steps (n : Nat) (smp : Sample) (q : ThreadPool V E)
    (hm : q.manager = ManagerPc.growing smp n) :
    ∃ (acts : List (Action V E)) (smp' : Sample),
      (∀ a ∈ acts, a = Action.managerGrowStep) ∧
      smp'.task_num = smp.task_num ∧ smp'.idle_workers_num = smp.idle_workers_num ∧
      q.run acts = some { growLoop n smp.total_workers q with
                            manager := ManagerPc.shrinkTest smp' } := by
  induction n generalizing smp q with
  | zero =>
    refine ⟨[Action.managerGrowStep], smp, by simp, rfl, rfl, ?_⟩
    simp only [run, step, hm, growLoop]
  | succ n ih =>
    by_cases hlt : smp.total_workers < q.m_maxThs
    · obtain ⟨acts, smp', hacts, h1, h2, hrun⟩ :=
        ih (smp.withTotal ((spawnWorker q).m_idleWorkers + (spawnWorker q).m_busyWorkers))
          { spawnWorker q with
            manager := ManagerPc.growing
              (smp.withTotal ((spawnWorker q).m_idleWorkers + (spawnWorker q).m_busyWorkers)) n }
          rfl
      refine ⟨Action.managerGrowStep :: acts, smp', ?_, h1, h2, ?_⟩
      · intro a ha
        rcases List.mem_cons.mp ha with rfl | hmem
        · rfl
        · exact hacts a hmem
      · simp only [run, step, hm, if_pos hlt]
        rw [hrun, growLoop_manager]
        simp only [growLoop, if_pos hlt, Sample.withTotal]
    · refine ⟨[Action.managerGrowStep], smp, by simp, rfl, rfl, ?_⟩
      simp only [run, step, hm, if_neg hlt, growLoop]

theorem managerShrink_sample (smp smp' : Sample) (q : ThreadPool V E) (pc : ManagerPc)
    (h1 : smp'.task_num = smp.task_num) (h2 : smp'.idle_workers_num = smp.idle_workers_num) :
    ({ managerShrink smp' { q with manager := pc } with manager := ManagerPc.loopHead }
        : ThreadPool V E)
      = { managerShrink smp q with manager := ManagerPc.loopHead } := by
  simp only [managerShrink, h1, h2]
  split <;> rfl

/-- The shrink block, run from its test. -/
theorem run_shrinkStep (smp smp' : Sample) (g : ThreadPool V E)
    (h1 : smp'.task_num = smp.task_num) (h2 : smp'.idle_workers_num = smp.idle_workers_num) :
    ({ g with manager := ManagerPc.shrinkTest smp' } : ThreadPool V E).run
        [Action.managerShrinkStep]
      = some { managerShrink smp g with manager := ManagerPc.loopHead } := by
  have hstep : ({ g with manager := ManagerPc.shrinkTest smp' } : ThreadPool V E).step
      Action.managerShrinkStep
      = some { managerShrink smp' { g with manager := ManagerPc.shrinkTest smp' } with
                 manager := ManagerPc.loopHead } := rfl
  rw [run, hstep]
  show some _ = some _
  rw [managerShrink_sample smp smp' g _ h1 h2]

/-- The two samples, run from the start of the loop body. -/
theorem run_samples (p : ThreadPool V E) (hm : p.manager = ManagerPc.inBody) :
    p.run [Action.managerSampleQueue, Action.managerSampleCounters]
      = some { p with
          manager :=
            if (p.m_tasks.length : Int) > 2 * p.m_idleWorkers then
              ManagerPc.growing (managerSample p) (cdiv (p.m_tasks.length : Int) 2).toNat
            else ManagerPc.shrinkTest (managerSample p) } := by
  have h1 : p.step Action.managerSampleQueue
      = some { p with manager := ManagerPc.sampledQueue (p.m_tasks.length : Int) } := by
    simp only [step, hm]
  have h2 : ({ p with manager := ManagerPc.sampledQueue (p.m_tasks.length : Int) }
      : ThreadPool V E).step Action.managerSampleCounters
      = some { p with
          manager :=
            if (p.m_tasks.length : Int) > 2 * p.m_idleWorkers then
              ManagerPc.growing (managerSample p) (cdiv (p.m_tasks.length : Int) 2).toNat
            else ManagerPc.shrinkTest (managerSample p) } := rfl
  rw [run, h1]
  show run _ _ = _
  rw [run, h2]
  rfl

/-- The pass `managerTick` computes is a schedule of the manager alone: from
the start of the loop body, the queue sample, the counter sample, the turns of
the grow loop and the shrink block, run one after the other, lead to it. -/
theorem managerTick_is_a_schedule (p : ThreadPool V E) (hm : p.manager = ManagerPc.inBody) :
    ∃ acts : List (Action V E),
      (∀ a ∈ acts, a = Action.managerSampleQueue ∨ a = Action.managerSampleCounters ∨
        a = Action.managerGrowStep ∨ a = Action.managerShrinkStep) ∧
      p.run acts = some { p.managerTick with manager := ManagerPc.loopHead } := by
  have hsamples := run_samples p hm
  by_cases hg : (p.m_tasks.length : Int) > 2 * p.m_idleWorkers
  · rw [if_pos hg] at hsamples
    obtain ⟨acts, smp', hacts, h1, h2, hrun⟩ :=
      grow_steps (cdiv (p.m_tasks.length : Int) 2).toNat (managerSample p)
        { p with
          manager := ManagerPc.growing (managerSample p)
            (cdiv (p.m_tasks.length : Int) 2).toNat } rfl
    rw [growLoop_manager] at hrun
    refine ⟨[Action.managerSampleQueue, Action.managerSampleCounters] ++ (acts
      ++ [Action.managerShrinkStep]), ?_, ?_⟩
    · intro a ha
      simp only [List.mem_append, List.mem_cons, List.mem_singleton, List.not_mem_nil,
        or_false] at ha
      rcases ha with ((rfl | rfl) | (hmem | rfl))
      · exact Or.inl rfl
      · exact Or.inr (Or.inl rfl)
      · exact Or.inr (Or.inr (Or.inl (hacts a hmem)))
      · exact Or.inr (Or.inr (Or.inr rfl))
    · rw [run_append _ _ hsamples, run_append _ _ hrun]
      have hlast := run_shrinkStep (managerSample p) smp'
        (growLoop (cdiv (p.m_tasks.length : Int) 2).toNat (managerSample p).total_workers p)
        h1 h2
      refine Eq.trans hlast ?_
      have hgrow : managerGrow (managerSample p) p
          = growLoop (cdiv (p.m_tasks.length : Int) 2).toNat (managerSample p).total_workers p := by
        unfold managerGrow
        exact if_pos hg
      rw [managerTick, managerAct, hgrow]
  · rw [if_neg hg] at hsamples
    refine ⟨[Action.managerSampleQueue, Action.managerSampleCounters]
      ++ [Action.managerShrinkStep], ?_, ?_⟩
    · intro a ha
      simp only [List.mem_append, List.mem_cons, List.mem_singleton, List.not_mem_nil,
        or_false] at ha
      rcases ha with ((rfl | rfl) | rfl)
      · exact Or.inl rfl
      · exact Or.inr (Or.inl rfl)
      · exact Or.inr (Or.inr (Or.inr rfl))
    · rw [run_append _ _ hsamples]
      have hlast := run_shrinkStep (managerSample p) (managerSample p) p rfl rfl
      refine Eq.trans hlast ?_
      have hgrow : managerGrow (managerSample p) p = p := by
        unfold managerGrow
        exact if_neg hg
      rw [managerTick, managerAct, hgrow]

end ThreadPool
